import Mathlib

/-!
Verification of the deployer trait (`pkg/trait/deployer.go`):
the phase dispatcher (`Configure`/`Apply`), the registered post actions
(replace-all / patch-all), and the positive merge-patch generator
(`mergeFromPositivePatch.Data`).

Resource bodies and patches are JSON documents; we model them as a tree of
values (`Json`), with objects as ordered association lists (`JObj`) and arrays
as lists (`JArr`).  Serialization (`json.Marshal`) is modelled as the identity
on the tree: byte-level representation is abstracted away, as the spec permits
(byte-level determinism is not required).  The two external codec operations
invoked by `Data` are modelled at their documented boundary:

* `jsonpatch.CreateMergePatch` (evanphx/json-patch `getDiff`): recursive
  object diff; changed or added keys appear with the new value, keys present
  in the original but absent from the modified document appear with an
  explicit null marker, arrays and scalars are compared for equality and
  replaced wholesale; both top-level documents must be objects, otherwise the
  call fails.
* `json.Unmarshal(patch, out)` folding a merge-patch document into an
  existing object: standard merge-patch apply semantics (RFC 7386, the
  spec's `foldApply`): a null marker deletes the key, object values merge
  recursively, any other value replaces wholesale.
-/

mutual

/-- A JSON document: the structured key/value wire format of resource bodies
and patches. -/
inductive Json where
  | null
  | boolean (b : Bool)
  | num (n : Int)
  | str (s : String)
  | arr (elems : JArr)
  | obj (fields : JObj)
  deriving DecidableEq

/-- The elements of a JSON array. -/
inductive JArr where
  | nil
  | cons (hd : Json) (tl : JArr)
  deriving DecidableEq

/-- The fields of a JSON object, as an ordered association list. -/
inductive JObj where
  | nil
  | cons (key : String) (val : Json) (tl : JObj)
  deriving DecidableEq

end

/-- First value bound to a key, if any (JSON objects from a single
marshalling pass have unique keys, so this is the value of the key). -/
def JObj.lookup : JObj → String → Option Json
  | .nil, _ => none
  | .cons k v t, key => if k = key then some v else t.lookup key

/-- Whether the object has the given key. -/
def JObj.hasKey (fs : JObj) (key : String) : Bool :=
  (fs.lookup key).isSome

/-- Remove every binding of the given key. -/
def JObj.erase : JObj → String → JObj
  | .nil, _ => .nil
  | .cons k v t, key => if k = key then t.erase key else .cons k v (t.erase key)

/-- Rebind the first occurrence of the key in place, or append the binding at
the end when the key is absent. -/
def JObj.set : JObj → String → Json → JObj
  | .nil, key, nv => .cons key nv .nil
  | .cons k v t, key, nv =>
    if k = key then .cons k nv t else .cons k v (t.set key nv)

/-- Concatenation of two field lists. -/
def JObj.append : JObj → JObj → JObj
  | .nil, q => q
  | .cons k v t, q => .cons k v (t.append q)

/-- The fields of a document when it is an object, `nil` otherwise. -/
def Json.fieldsOf : Json → JObj
  | .obj fs => fs
  | _ => .nil

/-- Whether the document is a JSON object. -/
def Json.isObj : Json → Bool
  | .obj _ => true
  | _ => false

/-- A missing value, read as JSON null (the neutral target of a merge
fold: folding an object patch into it builds the object from scratch). -/
def optVal : Option Json → Json
  | some v => v
  | none => .null

mutual

/-- RFC 7386 merge-patch application, the semantics of folding a merge-patch
document into an existing object (`json.Unmarshal(patch, out)` in the source,
the spec's `foldApply`): an object patch is applied key by key, a null marker
deletes the key, any non-object patch replaces the target wholesale. -/
def Json.mergePatch (target patch : Json) : Json :=
  match patch with
  | .obj pf => .obj (JObj.mergePatchFields target.fieldsOf pf)
  | p => p

/-- Key-by-key application of an object-valued merge patch to the fields of
the target. -/
def JObj.mergePatchFields (tf : JObj) (pf : JObj) : JObj :=
  match pf with
  | .nil => tf
  | .cons k v rest =>
    if v = .null then JObj.mergePatchFields (tf.erase k) rest
    else
      match tf.lookup k with
      | some tv => JObj.mergePatchFields (tf.set k (Json.mergePatch tv v)) rest
      | none => JObj.mergePatchFields (tf.set k (Json.mergePatch .null v)) rest

end

/-- The null deletion markers of a merge-patch diff: one `null` entry for
every key of the original object absent from the modified object. -/
def JObj.deletedFields : JObj → JObj → JObj
  | .nil, _ => .nil
  | .cons k _ t, bf =>
    if bf.hasKey k then t.deletedFields bf
    else .cons k .null (t.deletedFields bf)

/-- The forward entries of the merge-patch diff of two objects
(evanphx/json-patch `getDiff`, iterating the modified object's fields):
an added key appears with its new value; when both values are objects the
diff recurses (the sub-diff, deletion markers included, is kept only when
non-empty); otherwise a changed value appears wholesale and an unchanged
value is skipped. -/
def JObj.diffFields (af : JObj) : JObj → JObj
  | .nil => .nil
  | .cons k bv rest =>
    match af.lookup k with
    | none => .cons k bv (af.diffFields rest)
    | some av =>
      match av, bv with
      | .obj afs, .obj bfs =>
        let d := (afs.diffFields bfs).append (afs.deletedFields bfs)
        if d = .nil then af.diffFields rest
        else .cons k (.obj d) (af.diffFields rest)
      | av', bv' =>
        if av' = bv' then af.diffFields rest
        else .cons k bv' (af.diffFields rest)

/-- The full merge-patch diff of two objects: forward entries followed by
null deletion markers. -/
def JObj.getDiff (af bf : JObj) : JObj :=
  (af.diffFields bf).append (af.deletedFields bf)

/-- `jsonpatch.CreateMergePatch originalJSON modifiedJSON`: the merge-patch
delta of two serialized documents.  Both documents must be JSON objects,
otherwise the call fails (`errBadJSONDoc`). -/
def createMergePatch (a b : Json) : Option Json :=
  match a, b with
  | .obj af, .obj bf => some (.obj (af.getDiff bf))
  | _, _ => none

/-- `runtime.Object.DeepCopyObject`: a structural deep copy; on the value
tree the copy is the same document. -/
def deepCopyObject (o : Json) : Json := o

/-- The `mergeFromPositivePatch` struct of the source: a patch generator
holding the live object the patch is computed against. -/
structure MergeFromPositivePatch where
  fromObject : Json
  deriving DecidableEq

/-- `mergeFrom(obj)`: wrap the live object into a positive-patch generator. -/
def mergeFrom (obj : Json) : MergeFromPositivePatch :=
  ⟨obj⟩

/-- `mergeFromPositivePatch.Data(obj)`: serialize the live object and the
desired object, compute the raw merge-patch delta, fold the delta into a
deep copy of the desired object (the work-around removing null markers so
that server-side defaults are not deleted), and return the serialization of
the folded copy.  `none` models the error return. -/
def MergeFromPositivePatch.Data (s : MergeFromPositivePatch) (obj : Json) :
    Option Json :=
  let originalJSON := s.fromObject
  let modifiedJSON := obj
  match createMergePatch originalJSON modifiedJSON with
  | none => none
  | some patch =>
    let out := deepCopyObject obj
    let out := Json.mergePatch out patch
    some out

/-- State-threading variant of `Data`: every Go variable the call can write
through is threaded explicitly and returned, so the frame effect of the call
is a statement about the result.  `json.Unmarshal(patch, out)` rebinds only
`out`, the deep copy; the live object `s.fromObject` and the argument `obj`
are returned as they came in. -/
def MergeFromPositivePatch.DataSt (s : MergeFromPositivePatch) (obj : Json) :
    Option Json × Json × Json :=
  let originalJSON := s.fromObject
  let modifiedJSON := obj
  match createMergePatch originalJSON modifiedJSON with
  | none => (none, s.fromObject, obj)
  | some patch =>
    let out := deepCopyObject obj
    let out := Json.mergePatch out patch
    (some out, s.fromObject, obj)

mutual

/-- Well-formedness of a marshalled document: every object level binds each
key at most once.  True of any document produced by `json.Marshal`. -/
def Json.wf : Json → Bool
  | .obj fs => fs.wfF
  | _ => true

/-- Well-formedness of an object's fields: keys are pairwise distinct and
every value is well-formed. -/
def JObj.wfF : JObj → Bool
  | .nil => true
  | .cons k v t => !t.hasKey k && v.wf && t.wfF

end

/-- Pairwise distinctness of an object's keys, at the top level only. -/
def JObj.keysNodup : JObj → Bool
  | .nil => true
  | .cons k _ t => !t.hasKey k && t.keysNodup

mutual

/-- No object field anywhere in the document holds a literal null (values
inside arrays are unconstrained: arrays are compared and replaced wholesale).
In merge-patch terms a null field is a deletion marker, not a value, and the
design cannot express deletions. -/
def Json.noNullVals : Json → Bool
  | .obj fs => fs.noNullValsF
  | _ => true

/-- Field-list form of `Json.noNullVals`. -/
def JObj.noNullValsF : JObj → Bool
  | .nil => true
  | .cons _ v t => !(v = .null) && v.noNullVals && t.noNullValsF

end

mutual

/-- `covers d r`: the document `r` agrees with `d` on every field `d`
explicitly specifies — for every non-null field of `d`, recursively through
nested objects down to non-object values, `r` holds the same value.  A null
field is a deletion marker, not a specified value, and imposes nothing. -/
def Json.covers : Json → Json → Bool
  | .obj df, r => JObj.coversF df r.fieldsOf
  | _, _ => true

/-- Field-list form of `Json.covers`. -/
def JObj.coversF : JObj → JObj → Bool
  | .nil, _ => true
  | .cons k v rest, rf =>
    (if v = .null then true
     else
       match v with
       | .obj _ =>
         match rf.lookup k with
         | some rv => Json.covers v rv
         | none => false
       | _ => rf.lookup k == some v) && JObj.coversF rest rf

end

mutual

/-- `untouched l d r`: every field present in `l` that `d` does not mention
is left untouched in `r`.  A key of `l` absent from `d` must keep its exact
value in `r`; when `d` binds the key to an object and `l` does too, the
requirement recurses; any other binding in `d` mentions the key (its whole
subtree is replaced wholesale), so nothing is required. -/
def Json.untouched : Json → Json → Json → Bool
  | .obj lf, .obj df, r => JObj.untouchedF lf df r.fieldsOf
  | _, _, _ => true

/-- Field-list form of `Json.untouched`. -/
def JObj.untouchedF : JObj → JObj → JObj → Bool
  | .nil, _, _ => true
  | .cons k lv rest, df, rf =>
    (match df.lookup k with
     | none => rf.lookup k == some lv
     | some dv =>
       match lv, dv with
       | .obj _, .obj _ =>
         match rf.lookup k with
         | some rv => Json.untouched lv dv rv
         | none => false
       | _, _ => true) && JObj.untouchedF rest df rf

end

mutual

/-- `d` is a sub-object of `l`: every field `d` sets already has the same
value in `l` (recursively through nested objects; a non-object value must
match exactly). -/
def Json.subObj : Json → Json → Bool
  | .obj df, .obj lf => JObj.subObjF df lf
  | d, l => d = l

/-- Field-list form of `Json.subObj`. -/
def JObj.subObjF : JObj → JObj → Bool
  | .nil, _ => true
  | .cons k v rest, lf =>
    (match lf.lookup k with
     | none => false
     | some lv => Json.subObj v lv) && rest.subObjF lf

end

/-! ### Structural eliminators

The three document types are mutually inductive; the generated recursor has
one motive per type, which the `induction` and `cases` tactics do not accept.
These single-motive eliminators recurse on one type at a time. -/

/-- Induction over the field list alone (field values are parameters). -/
@[induction_eliminator]
theorem JObj.inductionOn {motive : JObj → Prop} (nil : motive .nil)
    (cons : ∀ (key : String) (val : Json) (tl : JObj), motive tl →
      motive (.cons key val tl)) : ∀ t, motive t
  | .nil => nil
  | .cons k v tl => cons k v tl (JObj.inductionOn nil cons tl)

/-- Case analysis on a document. -/
@[cases_eliminator]
theorem Json.casesValOn {motive : Json → Prop} (t : Json) (null : motive .null)
    (boolean : ∀ b, motive (.boolean b)) (num : ∀ n, motive (.num n))
    (str : ∀ s, motive (.str s)) (arr : ∀ es, motive (.arr es))
    (obj : ∀ fs, motive (.obj fs)) : motive t :=
  match t with
  | .null => null
  | .boolean b => boolean b
  | .num n => num n
  | .str s => str s
  | .arr es => arr es
  | .obj fs => obj fs

/-- Case analysis on a field list. -/
@[cases_eliminator]
theorem JObj.casesFieldsOn {motive : JObj → Prop} (t : JObj) (nil : motive .nil)
    (cons : ∀ (key : String) (val : Json) (tl : JObj),
      motive (.cons key val tl)) : motive t :=
  match t with
  | .nil => nil
  | .cons k v tl => cons k v tl

/-! ### Association-list lemmas -/

/-- Whether the binding `(k, v)` occurs in the field list. -/
def JObj.hasEntry (fs : JObj) (k : String) (v : Json) : Bool :=
  match fs with
  | .nil => false
  | .cons k' v' t => (k' = k && v' = v) || t.hasEntry k v

theorem JObj.lookup_erase (t : JObj) (key k : String) :
    (t.erase key).lookup k = if k = key then none else t.lookup k := by
  induction t with
  | nil => simp [JObj.erase, JObj.lookup]
  | cons k' v' t ih =>
    by_cases h1 : k' = key <;> by_cases h2 : k' = k <;>
      simp_all [JObj.erase, JObj.lookup]

theorem JObj.lookup_set_eq (t : JObj) (key : String) (v : Json) :
    (t.set key v).lookup key = some v := by
  induction t with
  | nil => simp [JObj.set, JObj.lookup]
  | cons k' v' t ih =>
    by_cases h1 : k' = key <;> simp [JObj.set, JObj.lookup, h1, ih]

theorem JObj.lookup_set_ne (t : JObj) (key k : String) (v : Json)
    (h : k ≠ key) : (t.set key v).lookup k = t.lookup k := by
  induction t with
  | nil => simp [JObj.set, JObj.lookup, Ne.symm h]
  | cons k' v' t ih =>
    by_cases h1 : k' = key <;> by_cases h2 : k' = k <;>
      simp_all [JObj.set, JObj.lookup]

theorem JObj.lookup_append (p q : JObj) (k : String) :
    (p.append q).lookup k = (p.lookup k).or (q.lookup k) := by
  induction p with
  | nil => simp [JObj.append, JObj.lookup]
  | cons k' v' t ih =>
    by_cases h1 : k' = k <;> simp [JObj.append, JObj.lookup, h1, ih]

theorem JObj.append_nil (p : JObj) : p.append .nil = p := by
  induction p with
  | nil => rfl
  | cons k v t ih => simp [JObj.append, ih]

theorem JObj.hasKey_erase (t : JObj) (key k : String) :
    (t.erase key).hasKey k = if k = key then false else t.hasKey k := by
  by_cases h : k = key <;> simp [JObj.hasKey, JObj.lookup_erase, h]

theorem JObj.hasKey_set (t : JObj) (key k : String) (v : Json) :
    (t.set key v).hasKey k = if k = key then true else t.hasKey k := by
  by_cases h : k = key
  · simp [JObj.hasKey, h, JObj.lookup_set_eq]
  · simp [JObj.hasKey, h, JObj.lookup_set_ne _ _ _ _ h]

theorem JObj.keysNodup_erase (t : JObj) (key : String)
    (h : t.keysNodup = true) : (t.erase key).keysNodup = true := by
  induction t with
  | nil => simp [JObj.erase, JObj.keysNodup]
  | cons k' v' t ih =>
    simp only [JObj.keysNodup, Bool.and_eq_true, Bool.not_eq_true'] at h
    by_cases h1 : k' = key
    · subst h1
      simp [JObj.erase, JObj.keysNodup, ih h.2]
    · simp [JObj.erase, h1, JObj.keysNodup, JObj.hasKey_erase, ih h.2, h.1]

theorem JObj.keysNodup_set (t : JObj) (key : String) (v : Json)
    (h : t.keysNodup = true) : (t.set key v).keysNodup = true := by
  induction t with
  | nil => simp [JObj.set, JObj.keysNodup, JObj.hasKey, JObj.lookup]
  | cons k' v' t ih =>
    simp only [JObj.keysNodup, Bool.and_eq_true, Bool.not_eq_true'] at h
    by_cases h1 : k' = key
    · subst h1
      simp [JObj.set, JObj.keysNodup, h.1, h.2]
    · simp [JObj.set, h1, JObj.keysNodup, JObj.hasKey_set, ih h.2, h.1]

theorem JObj.lookup_hasEntry (fs : JObj) (k : String) (v : Json)
    (h : fs.lookup k = some v) : fs.hasEntry k v = true := by
  induction fs with
  | nil => simp [JObj.lookup] at h
  | cons k' v' t ih =>
    simp only [JObj.lookup] at h
    by_cases h1 : k' = k <;> simp_all [JObj.hasEntry]

theorem JObj.hasEntry_hasKey (fs : JObj) (k : String) (v : Json)
    (h : fs.hasEntry k v = true) : fs.hasKey k = true := by
  induction fs with
  | nil => simp [JObj.hasEntry] at h
  | cons k' v' t ih =>
    simp only [JObj.hasEntry, Bool.or_eq_true, Bool.and_eq_true] at h
    rcases h with ⟨h1, _⟩ | h
    · simp only [decide_eq_true_eq] at h1
      simp [JObj.hasKey, JObj.lookup, h1]
    · by_cases h2 : k' = k <;>
        simp_all [JObj.hasKey, JObj.lookup]

theorem JObj.hasEntry_lookup (fs : JObj) (k : String) (v : Json)
    (hnd : fs.keysNodup = true) (h : fs.hasEntry k v = true) :
    fs.lookup k = some v := by
  induction fs with
  | nil => simp [JObj.hasEntry] at h
  | cons k' v' t ih =>
    simp only [JObj.hasEntry, Bool.or_eq_true, Bool.and_eq_true] at h
    simp only [JObj.keysNodup, Bool.and_eq_true, Bool.not_eq_true'] at hnd
    rcases h with ⟨h1, h2⟩ | h
    · simp only [decide_eq_true_eq] at h1 h2
      simp [JObj.lookup, h1, h2]
    · have hk : k' ≠ k := by
        rintro rfl
        have := JObj.hasEntry_hasKey _ _ _ h
        simp [this] at hnd
      simp [JObj.lookup, hk, ih hnd.2 h]

theorem JObj.hasEntry_size (fs : JObj) (k : String) (v : Json)
    (h : fs.hasEntry k v = true) : sizeOf v < sizeOf fs := by
  induction fs with
  | nil => simp [JObj.hasEntry] at h
  | cons k' v' t ih =>
    simp only [JObj.hasEntry, Bool.or_eq_true, Bool.and_eq_true] at h
    rcases h with ⟨h1, h2⟩ | h
    · simp only [decide_eq_true_eq] at h2
      subst h2
      simp
      omega
    · have := ih h
      simp
      omega

/-! ### Pointwise semantics of the merge-patch fold -/

theorem JObj.lookup_cons_self (k : String) (v : Json) (t : JObj) :
    (JObj.cons k v t).lookup k = some v := by
  simp [JObj.lookup]

theorem JObj.lookup_cons_ne (k k' : String) (v : Json) (t : JObj)
    (h : k ≠ k') : (JObj.cons k v t).lookup k' = t.lookup k' := by
  simp [JObj.lookup, h]

theorem JObj.mergePatchFields_cons_null (tf : JObj) (k : String)
    (rest : JObj) :
    JObj.mergePatchFields tf (.cons k .null rest) =
      JObj.mergePatchFields (tf.erase k) rest := by
  simp [JObj.mergePatchFields]

theorem JObj.mergePatchFields_cons_found (tf : JObj) (k : String)
    (v tv : Json) (rest : JObj) (hn : v ≠ .null) (h : tf.lookup k = some tv) :
    JObj.mergePatchFields tf (.cons k v rest) =
      JObj.mergePatchFields (tf.set k (Json.mergePatch tv v)) rest := by
  simp [JObj.mergePatchFields, hn, h]

theorem JObj.mergePatchFields_cons_missing (tf : JObj) (k : String)
    (v : Json) (rest : JObj) (hn : v ≠ .null) (h : tf.lookup k = none) :
    JObj.mergePatchFields tf (.cons k v rest) =
      JObj.mergePatchFields (tf.set k (Json.mergePatch .null v)) rest := by
  simp [JObj.mergePatchFields, hn, h]

theorem JObj.lookup_mergePatchFields_frame (pf tf : JObj) (k : String)
    (h : pf.hasKey k = false) :
    (JObj.mergePatchFields tf pf).lookup k = tf.lookup k := by
  induction pf generalizing tf with
  | nil => rfl
  | cons k' pv rest ih =>
    have hk : k' ≠ k := by
      rintro rfl
      simp [JObj.hasKey, JObj.lookup] at h
    have hrest : rest.hasKey k = false := by
      simpa [JObj.hasKey, JObj.lookup, hk] using h
    by_cases hn : pv = .null
    · subst hn
      rw [JObj.mergePatchFields_cons_null, ih _ hrest, JObj.lookup_erase]
      simp [Ne.symm hk]
    · cases htf : tf.lookup k' with
      | some tv =>
        rw [JObj.mergePatchFields_cons_found tf k' pv tv rest hn htf,
          ih _ hrest, JObj.lookup_set_ne _ _ _ _ (fun h' => hk h'.symm)]
      | none =>
        rw [JObj.mergePatchFields_cons_missing tf k' pv rest hn htf,
          ih _ hrest, JObj.lookup_set_ne _ _ _ _ (fun h' => hk h'.symm)]

theorem JObj.keysNodup_mergePatchFields (pf tf : JObj)
    (h : tf.keysNodup = true) :
    (JObj.mergePatchFields tf pf).keysNodup = true := by
  induction pf generalizing tf with
  | nil => exact h
  | cons k' pv rest ih =>
    by_cases hn : pv = .null
    · subst hn
      rw [JObj.mergePatchFields_cons_null]
      exact ih _ (JObj.keysNodup_erase _ _ h)
    · cases htf : tf.lookup k' with
      | some tv =>
        rw [JObj.mergePatchFields_cons_found tf k' pv tv rest hn htf]
        exact ih _ (JObj.keysNodup_set _ _ _ h)
      | none =>
        rw [JObj.mergePatchFields_cons_missing tf k' pv rest hn htf]
        exact ih _ (JObj.keysNodup_set _ _ _ h)

theorem JObj.lookup_mergePatchFields (pf tf : JObj) (k : String)
    (hnd : pf.keysNodup = true) :
    (JObj.mergePatchFields tf pf).lookup k =
      match pf.lookup k with
      | none => tf.lookup k
      | some .null => none
      | some pv => some (Json.mergePatch (optVal (tf.lookup k)) pv) := by
  induction pf generalizing tf with
  | nil => rfl
  | cons k' pv rest ih =>
    simp only [JObj.keysNodup, Bool.and_eq_true, Bool.not_eq_true'] at hnd
    by_cases hk : k' = k
    · subst hk
      rw [JObj.lookup_cons_self]
      by_cases hn : pv = .null
      · subst hn
        rw [JObj.mergePatchFields_cons_null,
          JObj.lookup_mergePatchFields_frame _ _ _ hnd.1, JObj.lookup_erase]
        simp
      · have hmain : (JObj.mergePatchFields tf (.cons k' pv rest)).lookup k' =
            some (Json.mergePatch (optVal (tf.lookup k')) pv) := by
          cases htf : tf.lookup k' with
          | some tv =>
            rw [JObj.mergePatchFields_cons_found tf k' pv tv rest hn htf,
              JObj.lookup_mergePatchFields_frame _ _ _ hnd.1,
              JObj.lookup_set_eq]
            simp [optVal]
          | none =>
            rw [JObj.mergePatchFields_cons_missing tf k' pv rest hn htf,
              JObj.lookup_mergePatchFields_frame _ _ _ hnd.1,
              JObj.lookup_set_eq]
            simp [optVal]
        rw [hmain]
        cases pv <;> simp_all
    · rw [JObj.lookup_cons_ne _ _ _ _ hk]
      by_cases hn : pv = .null
      · subst hn
        rw [JObj.mergePatchFields_cons_null, ih _ hnd.2, JObj.lookup_erase]
        simp [Ne.symm hk]
      · cases htf : tf.lookup k' with
        | some tv =>
          rw [JObj.mergePatchFields_cons_found tf k' pv tv rest hn htf,
            ih _ hnd.2, JObj.lookup_set_ne _ _ _ _ (fun h' => hk h'.symm)]
        | none =>
          rw [JObj.mergePatchFields_cons_missing tf k' pv rest hn htf,
            ih _ hnd.2, JObj.lookup_set_ne _ _ _ _ (fun h' => hk h'.symm)]

/-! ### Pointwise semantics of the merge-patch diff -/

theorem JObj.diffFields_cons_missing (af : JObj) (k : String) (bv : Json)
    (rest : JObj) (ha : af.lookup k = none) :
    af.diffFields (.cons k bv rest) = .cons k bv (af.diffFields rest) := by
  simp [JObj.diffFields, ha]

theorem JObj.diffFields_cons_objs (af : JObj) (k : String) (afs bfs : JObj)
    (rest : JObj) (ha : af.lookup k = some (.obj afs)) :
    af.diffFields (.cons k (.obj bfs) rest) =
      if afs.getDiff bfs = .nil then af.diffFields rest
      else .cons k (.obj (afs.getDiff bfs)) (af.diffFields rest) := by
  simp [JObj.diffFields, ha, JObj.getDiff]

theorem JObj.diffFields_cons_default (af : JObj) (k : String) (av bv : Json)
    (rest : JObj) (ha : af.lookup k = some av)
    (hno : av.isObj = false ∨ bv.isObj = false) :
    af.diffFields (.cons k bv rest) =
      if av = bv then af.diffFields rest
      else .cons k bv (af.diffFields rest) := by
  cases av <;> cases bv <;> simp_all [JObj.diffFields, Json.isObj]

theorem JObj.diffFields_hasKey (af bf : JObj) (k : String)
    (h : (af.diffFields bf).hasKey k = true) : bf.hasKey k = true := by
  induction bf with
  | nil => simp [JObj.diffFields, JObj.hasKey, JObj.lookup] at h
  | cons k' bv rest ih =>
    by_cases hk : k' = k
    · simp [JObj.hasKey, JObj.lookup, hk]
    · rw [show (JObj.cons k' bv rest).hasKey k = rest.hasKey k by
        simp [JObj.hasKey, JObj.lookup, hk]]
      apply ih
      cases ha : af.lookup k' with
      | none =>
        rw [JObj.diffFields_cons_missing _ _ _ _ ha] at h
        simpa [JObj.hasKey, JObj.lookup, hk] using h
      | some av =>
        cases av with
        | obj afs =>
          cases bv with
          | obj bfs =>
            rw [JObj.diffFields_cons_objs _ _ afs bfs _ ha] at h
            by_cases hd : afs.getDiff bfs = .nil
            · simpa [hd] using h
            · rw [if_neg hd] at h
              simpa [JObj.hasKey, JObj.lookup, hk] using h
          | null | boolean _ | num _ | str _ | arr _ =>
            rw [JObj.diffFields_cons_default _ _ _ _ _ ha (by simp [Json.isObj])] at h
            split at h
            · exact h
            · simpa [JObj.hasKey, JObj.lookup, hk] using h
        | null | boolean _ | num _ | str _ | arr _ =>
          rw [JObj.diffFields_cons_default _ _ _ _ _ ha (by simp [Json.isObj])] at h
          split at h
          · exact h
          · simpa [JObj.hasKey, JObj.lookup, hk] using h

theorem JObj.lookup_deletedFields (af bf : JObj) (k : String) :
    (af.deletedFields bf).lookup k =
      if af.hasKey k && !bf.hasKey k then some .null else none := by
  induction af with
  | nil => simp [JObj.deletedFields, JObj.lookup, JObj.hasKey]
  | cons k' v' rest ih =>
    by_cases hk : k' = k
    · subst hk
      cases hb : bf.lookup k' with
      | some w => simp [JObj.deletedFields, JObj.hasKey, hb, ih, JObj.lookup]
      | none => simp [JObj.deletedFields, JObj.hasKey, hb, JObj.lookup]
    · have hhk : (JObj.cons k' v' rest).hasKey k = rest.hasKey k := by
        simp [JObj.hasKey, JObj.lookup, hk]
      cases hb : bf.lookup k' with
      | some w => simp [JObj.deletedFields, JObj.hasKey, hb, ih, hhk,
          JObj.lookup_cons_ne _ _ _ _ hk]
      | none => simp [JObj.deletedFields, JObj.hasKey, hb, ih, hhk,
          JObj.lookup, hk]

theorem JObj.deletedFields_hasKey (af bf : JObj) (k : String)
    (h : (af.deletedFields bf).hasKey k = true) :
    af.hasKey k = true ∧ bf.hasKey k = false := by
  rw [JObj.hasKey, JObj.lookup_deletedFields] at h
  by_cases h1 : af.hasKey k && !bf.hasKey k
  · simp only [Bool.and_eq_true, Bool.not_eq_true'] at h1
    exact h1
  · simp [h1] at h

theorem JObj.keysNodup_diffFields (af bf : JObj)
    (hnd : bf.keysNodup = true) : (af.diffFields bf).keysNodup = true := by
  induction bf with
  | nil => simp [JObj.diffFields, JObj.keysNodup]
  | cons k' bv rest ih =>
    simp only [JObj.keysNodup, Bool.and_eq_true, Bool.not_eq_true'] at hnd
    have hrest : (af.diffFields rest).hasKey k' = false := by
      cases hh : (af.diffFields rest).hasKey k'
      · rfl
      · exact absurd (JObj.diffFields_hasKey _ _ _ hh) (by simp [hnd.1])
    cases ha : af.lookup k' with
    | none =>
      rw [JObj.diffFields_cons_missing _ _ _ _ ha]
      simp [JObj.keysNodup, hrest, ih hnd.2]
    | some av =>
      cases av with
      | obj afs =>
        cases bv with
        | obj bfs =>
          rw [JObj.diffFields_cons_objs _ _ afs bfs _ ha]
          by_cases hd : afs.getDiff bfs = .nil
          · simp [hd, ih hnd.2]
          · simp [hd, JObj.keysNodup, hrest, ih hnd.2]
        | null | boolean _ | num _ | str _ | arr _ =>
          rw [JObj.diffFields_cons_default _ _ _ _ _ ha (by simp [Json.isObj])]
          split
          · exact ih hnd.2
          · simp [JObj.keysNodup, hrest, ih hnd.2]
      | null | boolean _ | num _ | str _ | arr _ =>
        rw [JObj.diffFields_cons_default _ _ _ _ _ ha (by simp [Json.isObj])]
        split
        · exact ih hnd.2
        · simp [JObj.keysNodup, hrest, ih hnd.2]

theorem JObj.keysNodup_deletedFields (af bf : JObj)
    (hnd : af.keysNodup = true) : (af.deletedFields bf).keysNodup = true := by
  induction af with
  | nil => simp [JObj.deletedFields, JObj.keysNodup]
  | cons k' v' rest ih =>
    simp only [JObj.keysNodup, Bool.and_eq_true, Bool.not_eq_true'] at hnd
    have hrest : (rest.deletedFields bf).hasKey k' = false := by
      cases hh : (rest.deletedFields bf).hasKey k'
      · rfl
      · exact absurd (JObj.deletedFields_hasKey _ _ _ hh).1 (by simp [hnd.1])
    by_cases hb : bf.hasKey k'
    · simp [JObj.deletedFields, hb, ih hnd.2]
    · simp [JObj.deletedFields, hb, JObj.keysNodup, hrest, ih hnd.2]

theorem JObj.hasKey_append (p q : JObj) (k : String) :
    (p.append q).hasKey k = (p.hasKey k || q.hasKey k) := by
  rw [JObj.hasKey, JObj.lookup_append]
  cases hp : p.lookup k <;> simp [JObj.hasKey, hp, Option.or]

theorem JObj.keysNodup_append (p q : JObj) (hp : p.keysNodup = true)
    (hq : q.keysNodup = true)
    (hdisj : ∀ k, p.hasKey k = true → q.hasKey k = false) :
    (p.append q).keysNodup = true := by
  induction p with
  | nil => simpa [JObj.append]
  | cons k' v' rest ih =>
    simp only [JObj.keysNodup, Bool.and_eq_true, Bool.not_eq_true'] at hp
    have hk' : q.hasKey k' = false := by
      apply hdisj
      simp [JObj.hasKey, JObj.lookup]
    have hdisj' : ∀ k, rest.hasKey k = true → q.hasKey k = false := by
      intro k hk
      apply hdisj
      by_cases h2 : k' = k <;> simp [JObj.hasKey, JObj.lookup, h2, hk] <;>
        simpa [JObj.hasKey] using hk
    simp [JObj.append, JObj.keysNodup, JObj.hasKey_append, hp.1, hk',
      ih hp.2 hdisj']

theorem JObj.keysNodup_getDiff (af bf : JObj) (haf : af.keysNodup = true)
    (hbf : bf.keysNodup = true) : (af.getDiff bf).keysNodup = true := by
  apply JObj.keysNodup_append _ _ (JObj.keysNodup_diffFields _ _ hbf)
    (JObj.keysNodup_deletedFields _ _ haf)
  intro k hk
  have := JObj.diffFields_hasKey _ _ _ hk
  rw [JObj.hasKey, JObj.lookup_deletedFields]
  simp [this]

theorem JObj.lookup_diffFields (af bf : JObj) (k : String)
    (hnd : bf.keysNodup = true) :
    (af.diffFields bf).lookup k =
      match bf.lookup k with
      | none => none
      | some bv =>
        match af.lookup k with
        | none => some bv
        | some av =>
          match av, bv with
          | .obj afs, .obj bfs =>
            if afs.getDiff bfs = .nil then none
            else some (.obj (afs.getDiff bfs))
          | _, _ => if av = bv then none else some bv := by
  induction bf with
  | nil => simp [JObj.diffFields, JObj.lookup]
  | cons k' bv rest ih =>
    simp only [JObj.keysNodup, Bool.and_eq_true, Bool.not_eq_true'] at hnd
    have habsent : (af.diffFields rest).lookup k' = none := by
      cases hh : (af.diffFields rest).lookup k' with
      | none => rfl
      | some w =>
        have : (af.diffFields rest).hasKey k' = true := by
          simp [JObj.hasKey, hh]
        exact absurd (JObj.diffFields_hasKey _ _ _ this) (by simp [hnd.1])
    by_cases hk : k' = k
    · subst hk
      rw [JObj.lookup_cons_self]
      cases ha : af.lookup k' with
      | none =>
        rw [JObj.diffFields_cons_missing _ _ _ _ ha, JObj.lookup_cons_self]
      | some av =>
        cases av with
        | obj afs =>
          cases bv with
          | obj bfs =>
            rw [JObj.diffFields_cons_objs _ _ afs bfs _ ha]
            by_cases hd : afs.getDiff bfs = .nil
            · simp [hd, habsent]
            · simp [hd, JObj.lookup_cons_self]
          | null | boolean _ | num _ | str _ | arr _ =>
            rw [JObj.diffFields_cons_default _ _ _ _ _ ha (by simp [Json.isObj])]
            split
            · simp_all
            · simp_all [JObj.lookup_cons_self]
        | null | boolean _ | num _ | str _ | arr _ =>
          rw [JObj.diffFields_cons_default _ _ _ _ _ ha (by simp [Json.isObj])]
          split
          · simp_all
          · simp_all [JObj.lookup_cons_self]
    · rw [JObj.lookup_cons_ne _ _ _ _ hk]
      cases ha : af.lookup k' with
      | none =>
        rw [JObj.diffFields_cons_missing _ _ _ _ ha,
          JObj.lookup_cons_ne _ _ _ _ hk, ih hnd.2]
      | some av =>
        cases av with
        | obj afs =>
          cases bv with
          | obj bfs =>
            rw [JObj.diffFields_cons_objs _ _ afs bfs _ ha]
            by_cases hd : afs.getDiff bfs = .nil
            · simp [hd, ih hnd.2]
            · simp [hd, JObj.lookup_cons_ne _ _ _ _ hk, ih hnd.2]
          | null | boolean _ | num _ | str _ | arr _ =>
            rw [JObj.diffFields_cons_default _ _ _ _ _ ha (by simp [Json.isObj])]
            split
            · rw [ih hnd.2]
            · rw [JObj.lookup_cons_ne _ _ _ _ hk, ih hnd.2]
        | null | boolean _ | num _ | str _ | arr _ =>
          rw [JObj.diffFields_cons_default _ _ _ _ _ ha (by simp [Json.isObj])]
          split
          · rw [ih hnd.2]
          · rw [JObj.lookup_cons_ne _ _ _ _ hk, ih hnd.2]

theorem JObj.lookup_getDiff (af bf : JObj) (k : String)
    (hndb : bf.keysNodup = true) :
    (af.getDiff bf).lookup k =
      match bf.lookup k, af.lookup k with
      | none, none => none
      | none, some _ => some .null
      | some bv, none => some bv
      | some bv, some av =>
        match av, bv with
        | .obj afs, .obj bfs =>
          if afs.getDiff bfs = .nil then none
          else some (.obj (afs.getDiff bfs))
        | _, _ => if av = bv then none else some bv := by
  rw [JObj.getDiff, JObj.lookup_append, JObj.lookup_diffFields _ _ _ hndb,
    JObj.lookup_deletedFields]
  cases hb : bf.lookup k with
  | none =>
    cases ha : af.lookup k <;> simp [JObj.hasKey, hb, ha, Option.or]
  | some bv =>
    have hbk : bf.hasKey k = true := by simp [JObj.hasKey, hb]
    cases ha : af.lookup k with
    | none => simp [JObj.hasKey, hb, ha, Option.or]
    | some av =>
      cases av <;> cases bv <;> simp only [hbk, Bool.not_true,
        Bool.and_false, if_false] <;>
        split <;> rename_i hcond <;> simp_all [Option.or]

/-! ### Well-formedness unpacking -/

theorem JObj.wfF_keysNodup (fs : JObj) (h : fs.wfF = true) :
    fs.keysNodup = true := by
  induction fs with
  | nil => rfl
  | cons k v t ih =>
    simp only [JObj.wfF, Bool.and_eq_true, Bool.not_eq_true'] at h
    simp [JObj.keysNodup, h.1.1, ih h.2]

theorem JObj.wfF_hasEntry_wf (fs : JObj) (k : String) (v : Json)
    (h : fs.wfF = true) (he : fs.hasEntry k v = true) : v.wf = true := by
  induction fs with
  | nil => simp [JObj.hasEntry] at he
  | cons k' v' t ih =>
    simp only [JObj.wfF, Bool.and_eq_true, Bool.not_eq_true'] at h
    simp only [JObj.hasEntry, Bool.or_eq_true, Bool.and_eq_true] at he
    rcases he with ⟨_, h2⟩ | he
    · simp only [decide_eq_true_eq] at h2
      subst h2
      exact h.1.2
    · exact ih h.2 he

theorem JObj.wfF_lookup_wf (fs : JObj) (k : String) (v : Json)
    (h : fs.wfF = true) (hl : fs.lookup k = some v) : v.wf = true :=
  JObj.wfF_hasEntry_wf fs k v h (JObj.lookup_hasEntry fs k v hl)

theorem Json.wf_obj (fs : JObj) : Json.wf (.obj fs) = fs.wfF := rfl

/-! ### Pointwise semantics of the produced patch (the folded candidate) -/

/-- Lookup in the document `Data` produces: the deep copy of the desired
object with the raw delta folded in. -/
theorem JObj.lookup_candidate (lf df : JObj) (k : String)
    (hndl : lf.keysNodup = true) (hndd : df.keysNodup = true) :
    (JObj.mergePatchFields df (lf.getDiff df)).lookup k =
      match df.lookup k with
      | none => none
      | some dv =>
        match lf.lookup k with
        | none =>
          if dv = .null then none else some (Json.mergePatch dv dv)
        | some lv =>
          match lv, dv with
          | .obj lvs, .obj dvs =>
            some (.obj (JObj.mergePatchFields dvs (lvs.getDiff dvs)))
          | _, _ =>
            if lv = dv then some dv
            else if dv = .null then none
            else some (Json.mergePatch dv dv) := by
  rw [JObj.lookup_mergePatchFields _ _ _
      (JObj.keysNodup_getDiff _ _ hndl hndd),
    JObj.lookup_getDiff _ _ _ hndd]
  cases hd : df.lookup k with
  | none => cases hl : lf.lookup k <;> simp
  | some dv =>
    cases hl : lf.lookup k with
    | none => cases dv <;> simp [optVal, Json.mergePatch]
    | some lv =>
      by_cases hc : lv = dv
      · subst hc
        cases lv with
        | obj lvs =>
          by_cases hg : lvs.getDiff lvs = .nil <;>
            simp [hg, hd, JObj.mergePatchFields, optVal, Json.mergePatch,
              Json.fieldsOf]
        | null | boolean _ | num _ | str _ | arr _ =>
          simp [hd, optVal, Json.mergePatch]
      · cases lv <;> cases dv <;>
          try simp [hc, hd, optVal, Json.mergePatch, Json.fieldsOf]
        all_goals
          rename_i lvs dvs
        all_goals
          by_cases hg : lvs.getDiff dvs = .nil <;>
            simp [hg, hd, JObj.mergePatchFields, optVal, Json.mergePatch,
              Json.fieldsOf]

theorem JObj.diffFields_nil_left (bf : JObj) :
    JObj.diffFields .nil bf = bf := by
  induction bf with
  | nil => rfl
  | cons k bv rest ih =>
    rw [JObj.diffFields_cons_missing _ _ _ _ (by rfl), ih]

theorem JObj.getDiff_nil_left (bf : JObj) : JObj.getDiff .nil bf = bf := by
  rw [JObj.getDiff, JObj.diffFields_nil_left]
  show bf.append .nil = bf
  exact JObj.append_nil bf

theorem Json.fieldsOf_nonObj (v : Json) (h : v.isObj = false) :
    v.fieldsOf = .nil := by
  cases v <;> simp_all [Json.isObj, Json.fieldsOf]

theorem Json.mergePatch_nonObj (t p : Json) (h : p.isObj = false) :
    Json.mergePatch t p = p := by
  cases p <;> simp_all [Json.isObj, Json.mergePatch]

theorem JObj.mpf_lookup_none (pf tf : JObj) (k : String)
    (hnd : pf.keysNodup = true) (h : pf.lookup k = none) :
    (JObj.mergePatchFields tf pf).lookup k = tf.lookup k := by
  rw [JObj.lookup_mergePatchFields _ _ _ hnd, h]

theorem JObj.mpf_lookup_null (pf tf : JObj) (k : String)
    (hnd : pf.keysNodup = true) (h : pf.lookup k = some .null) :
    (JObj.mergePatchFields tf pf).lookup k = none := by
  rw [JObj.lookup_mergePatchFields _ _ _ hnd, h]

theorem JObj.mpf_lookup_some (pf tf : JObj) (k : String) (pv : Json)
    (hnd : pf.keysNodup = true) (h : pf.lookup k = some pv)
    (hnn : pv ≠ .null) :
    (JObj.mergePatchFields tf pf).lookup k =
      some (Json.mergePatch (optVal (tf.lookup k)) pv) := by
  rw [JObj.lookup_mergePatchFields _ _ _ hnd, h]
  cases pv <;> simp_all

theorem JObj.cand_none (lf df : JObj) (k : String)
    (hndl : lf.keysNodup = true) (hndd : df.keysNodup = true)
    (hd : df.lookup k = none) :
    (JObj.mergePatchFields df (lf.getDiff df)).lookup k = none := by
  rw [JObj.lookup_candidate lf df k hndl hndd, hd]

theorem JObj.cand_added (lf df : JObj) (k : String) (dv : Json)
    (hndl : lf.keysNodup = true) (hndd : df.keysNodup = true)
    (hd : df.lookup k = some dv) (hl : lf.lookup k = none)
    (hnn : dv ≠ .null) :
    (JObj.mergePatchFields df (lf.getDiff df)).lookup k =
      some (Json.mergePatch dv dv) := by
  rw [JObj.lookup_candidate lf df k hndl hndd, hd, hl]
  simp [hnn]

theorem JObj.cand_added_null (lf df : JObj) (k : String)
    (hndl : lf.keysNodup = true) (hndd : df.keysNodup = true)
    (hd : df.lookup k = some .null) (hl : lf.lookup k = none) :
    (JObj.mergePatchFields df (lf.getDiff df)).lookup k = none := by
  rw [JObj.lookup_candidate lf df k hndl hndd, hd, hl]
  simp

theorem JObj.cand_objs (lf df : JObj) (k : String) (lvs dvs : JObj)
    (hndl : lf.keysNodup = true) (hndd : df.keysNodup = true)
    (hd : df.lookup k = some (.obj dvs)) (hl : lf.lookup k = some (.obj lvs)) :
    (JObj.mergePatchFields df (lf.getDiff df)).lookup k =
      some (.obj (JObj.mergePatchFields dvs (lvs.getDiff dvs))) := by
  rw [JObj.lookup_candidate lf df k hndl hndd, hd, hl]

theorem JObj.cand_same (lf df : JObj) (k : String) (lv dv : Json)
    (hndl : lf.keysNodup = true) (hndd : df.keysNodup = true)
    (hd : df.lookup k = some dv) (hl : lf.lookup k = some lv)
    (heq : lv = dv) (hno : lv.isObj = false ∨ dv.isObj = false) :
    (JObj.mergePatchFields df (lf.getDiff df)).lookup k = some dv := by
  rw [JObj.lookup_candidate lf df k hndl hndd, hd, hl]
  subst heq
  cases lv <;> simp_all [Json.isObj]

theorem JObj.cand_changed (lf df : JObj) (k : String) (lv dv : Json)
    (hndl : lf.keysNodup = true) (hndd : df.keysNodup = true)
    (hd : df.lookup k = some dv) (hl : lf.lookup k = some lv)
    (hne : lv ≠ dv) (hno : lv.isObj = false ∨ dv.isObj = false)
    (hnn : dv ≠ .null) :
    (JObj.mergePatchFields df (lf.getDiff df)).lookup k =
      some (Json.mergePatch dv dv) := by
  rw [JObj.lookup_candidate lf df k hndl hndd, hd, hl]
  cases lv <;> cases dv <;> simp_all [Json.isObj]

theorem JObj.cand_changed_null (lf df : JObj) (k : String) (lv : Json)
    (hndl : lf.keysNodup = true) (hndd : df.keysNodup = true)
    (hd : df.lookup k = some .null) (hl : lf.lookup k = some lv)
    (hne : lv ≠ .null) :
    (JObj.mergePatchFields df (lf.getDiff df)).lookup k = none := by
  rw [JObj.lookup_candidate lf df k hndl hndd, hd, hl]
  cases lv <;> simp_all [Json.isObj]

/-! ### The value the applied patch leaves at each key -/

theorem Json.mergePatch_self_ne_null (dv : Json) (h : dv ≠ .null) :
    Json.mergePatch dv dv ≠ .null := by
  cases dv <;> simp_all [Json.mergePatch]

/-- A field the desired object binds to a non-null, non-object value ends up
in the applied result with exactly that value. -/
theorem JObj.cover_field_nonObj (lf df : JObj) (k : String) (dv : Json)
    (hndl : lf.keysNodup = true) (hndd : df.keysNodup = true)
    (hd : df.lookup k = some dv) (hobj : dv.isObj = false)
    (hnn : dv ≠ .null) :
    (JObj.mergePatchFields lf
      (JObj.mergePatchFields df (lf.getDiff df))).lookup k = some dv := by
  have hmp : Json.mergePatch dv dv = dv := Json.mergePatch_nonObj dv dv hobj
  have hndc := JObj.keysNodup_mergePatchFields (lf.getDiff df) df hndd
  cases hlf : lf.lookup k with
  | none =>
    have hcand := JObj.cand_added lf df k dv hndl hndd hd hlf hnn
    rw [hmp] at hcand
    rw [JObj.mpf_lookup_some _ _ _ _ hndc hcand hnn,
      Json.mergePatch_nonObj _ _ hobj]
  | some lv =>
    by_cases heq : lv = dv
    · have hcand := JObj.cand_same lf df k lv dv hndl hndd hd hlf heq
        (Or.inr hobj)
      rw [JObj.mpf_lookup_some _ _ _ _ hndc hcand hnn,
        Json.mergePatch_nonObj _ _ hobj]
    · have hcand := JObj.cand_changed lf df k lv dv hndl hndd hd hlf heq
        (Or.inr hobj) hnn
      rw [hmp] at hcand
      rw [JObj.mpf_lookup_some _ _ _ _ hndc hcand hnn,
        Json.mergePatch_nonObj _ _ hobj]

/-- A field the desired object binds to an object, with a live object on the
other side, ends up as the recursively patched object. -/
theorem JObj.result_objs (lf df : JObj) (k : String) (lvs dvs : JObj)
    (hndl : lf.keysNodup = true) (hndd : df.keysNodup = true)
    (hd : df.lookup k = some (.obj dvs))
    (hl : lf.lookup k = some (.obj lvs)) :
    (JObj.mergePatchFields lf
      (JObj.mergePatchFields df (lf.getDiff df))).lookup k =
      some (.obj (JObj.mergePatchFields lvs
        (JObj.mergePatchFields dvs (lvs.getDiff dvs)))) := by
  have hndc := JObj.keysNodup_mergePatchFields (lf.getDiff df) df hndd
  have hcand := JObj.cand_objs lf df k lvs dvs hndl hndd hd hl
  rw [JObj.mpf_lookup_some _ _ _ _ hndc hcand (by simp), hl]
  simp [optVal, Json.mergePatch, Json.fieldsOf]

/-- A field the desired object binds to an object, with no live object on the
other side (key absent or bound to a non-object), ends up as the object
rebuilt from scratch. -/
theorem JObj.result_obj_nolive (lf df : JObj) (k : String) (dvs : JObj)
    (hndl : lf.keysNodup = true) (hndd : df.keysNodup = true)
    (hd : df.lookup k = some (.obj dvs))
    (hside : lf.lookup k = none ∨
      ∃ lv, lf.lookup k = some lv ∧ lv.isObj = false) :
    (JObj.mergePatchFields lf
      (JObj.mergePatchFields df (lf.getDiff df))).lookup k =
      some (.obj (JObj.mergePatchFields .nil
        (JObj.mergePatchFields dvs dvs))) := by
  have hndc := JObj.keysNodup_mergePatchFields (lf.getDiff df) df hndd
  have hmp : Json.mergePatch (.obj dvs) (.obj dvs) =
      .obj (JObj.mergePatchFields dvs dvs) := rfl
  rcases hside with hlf | ⟨lv, hlf, hobj⟩
  · have hcand := JObj.cand_added lf df k (.obj dvs) hndl hndd hd hlf
      (by simp)
    rw [hmp] at hcand
    rw [JObj.mpf_lookup_some _ _ _ _ hndc hcand (by simp), hlf]
    simp [optVal, Json.mergePatch, Json.fieldsOf]
  · have hne : lv ≠ .obj dvs := by
      intro h
      rw [h] at hobj
      simp [Json.isObj] at hobj
    have hcand := JObj.cand_changed lf df k lv (.obj dvs) hndl hndd hd hlf
      hne (Or.inl hobj) (by simp)
    rw [hmp] at hcand
    rw [JObj.mpf_lookup_some _ _ _ _ hndc hcand (by simp), hlf]
    simp [optVal, Json.mergePatch, Json.fieldsOf_nonObj lv hobj]

/-- Coverage, inner induction: applying the produced patch to the live object
realizes, for every sub-list of the desired fields, every non-null field the
desired object specifies, recursively. -/
theorem JObj.coversAux (n : Nat) : ∀ (df lf df0 : JObj),
    sizeOf df ≤ n →
    df.wfF = true → lf.wfF = true →
    (∀ k v, df0.hasEntry k v = true → df.lookup k = some v) →
    JObj.coversF df0
      (JObj.mergePatchFields lf (JObj.mergePatchFields df (lf.getDiff df))) =
      true := by
  induction n with
  | zero =>
    intro df lf df0 hsz _ _ _
    cases df <;> simp at hsz
  | succ n ihn =>
    intro df lf df0 hsz hwd hwl hsub
    induction df0 with
    | nil => rfl
    | cons k dv rest ihr =>
      have hdk : df.lookup k = some dv := by
        apply hsub
        simp [JObj.hasEntry]
      have hrest := ihr (fun k' v' h' => hsub k' v' (by
        simp only [JObj.hasEntry, Bool.or_eq_true]
        exact Or.inr h'))
      simp only [JObj.coversF, hrest, Bool.and_true]
      have hndd := JObj.wfF_keysNodup df hwd
      have hndl := JObj.wfF_keysNodup lf hwl
      by_cases hnull : dv = .null
      · simp [hnull]
      · rw [if_neg hnull]
        have hsdv : sizeOf dv < sizeOf df :=
          JObj.hasEntry_size df k dv (JObj.lookup_hasEntry df k dv hdk)
        cases dv with
        | null => exact absurd rfl hnull
        | obj dvs =>
          have hszd : sizeOf dvs ≤ n := by
            simp at hsdv
            omega
          have hwdvs : dvs.wfF = true := JObj.wfF_lookup_wf df k _ hwd hdk
          have hsubd : ∀ k' v', dvs.hasEntry k' v' = true →
              dvs.lookup k' = some v' :=
            fun k' v' h' => JObj.hasEntry_lookup dvs k' v'
              (JObj.wfF_keysNodup dvs hwdvs) h'
          cases hlf : lf.lookup k with
          | none =>
            rw [JObj.result_obj_nolive lf df k dvs hndl hndd hdk
              (Or.inl hlf)]
            have := ihn dvs .nil dvs hszd hwdvs rfl hsubd
            rw [JObj.getDiff_nil_left] at this
            simpa [Json.covers, Json.fieldsOf] using this
          | some lv =>
            cases lv with
            | obj lvs =>
              rw [JObj.result_objs lf df k lvs dvs hndl hndd hdk hlf]
              have hwlvs : lvs.wfF = true :=
                JObj.wfF_lookup_wf lf k _ hwl hlf
              simpa [Json.covers, Json.fieldsOf] using
                ihn dvs lvs dvs hszd hwdvs hwlvs hsubd
            | null | boolean _ | num _ | str _ | arr _ =>
              rw [JObj.result_obj_nolive lf df k dvs hndl hndd hdk
                (Or.inr ⟨_, hlf, by simp [Json.isObj]⟩)]
              have := ihn dvs .nil dvs hszd hwdvs rfl hsubd
              rw [JObj.getDiff_nil_left] at this
              simpa [Json.covers, Json.fieldsOf] using this
        | boolean _ | num _ | str _ | arr _ =>
          rw [JObj.cover_field_nonObj lf df k _ hndl hndd hdk
            (by simp [Json.isObj]) hnull]
          simp

/-- Positivity, inner induction: applying the produced patch to the live
object leaves untouched, for every sub-list of the live fields, every field
the desired object does not mention. -/
theorem JObj.untouchedAux (n : Nat) : ∀ (df lf lf0 : JObj),
    sizeOf df ≤ n →
    df.wfF = true → lf.wfF = true →
    (∀ k v, lf0.hasEntry k v = true → lf.lookup k = some v) →
    JObj.untouchedF lf0 df
      (JObj.mergePatchFields lf (JObj.mergePatchFields df (lf.getDiff df))) =
      true := by
  induction n with
  | zero =>
    intro df lf lf0 hsz _ _ _
    cases df <;> simp at hsz
  | succ n ihn =>
    intro df lf lf0 hsz hwd hwl hsub
    induction lf0 with
    | nil => rfl
    | cons k lv rest ihr =>
      have hlk : lf.lookup k = some lv := by
        apply hsub
        simp [JObj.hasEntry]
      have hrest := ihr (fun k' v' h' => hsub k' v' (by
        simp only [JObj.hasEntry, Bool.or_eq_true]
        exact Or.inr h'))
      simp only [JObj.untouchedF, hrest, Bool.and_true]
      have hndd := JObj.wfF_keysNodup df hwd
      have hndl := JObj.wfF_keysNodup lf hwl
      cases hd2 : df.lookup k with
      | none =>
        have hcn := JObj.cand_none lf df k hndl hndd hd2
        rw [JObj.mpf_lookup_none _ _ _
          (JObj.keysNodup_mergePatchFields _ _ hndd) hcn, hlk]
        simp
      | some dv =>
        cases lv with
        | obj lvs =>
          cases dv with
          | obj dvs =>
            rw [JObj.result_objs lf df k lvs dvs hndl hndd hd2 hlk]
            have hsdv : sizeOf (Json.obj dvs) < sizeOf df :=
              JObj.hasEntry_size df k _ (JObj.lookup_hasEntry df k _ hd2)
            have hszd : sizeOf dvs ≤ n := by
              simp at hsdv
              omega
            have hwdvs : dvs.wfF = true := JObj.wfF_lookup_wf df k _ hwd hd2
            have hwlvs : lvs.wfF = true := JObj.wfF_lookup_wf lf k _ hwl hlk
            have hsubl : ∀ k' v', lvs.hasEntry k' v' = true →
                lvs.lookup k' = some v' :=
              fun k' v' h' => JObj.hasEntry_lookup lvs k' v'
                (JObj.wfF_keysNodup lvs hwlvs) h'
            simpa [Json.untouched, Json.fieldsOf] using
              ihn dvs lvs lvs hszd hwdvs hwlvs hsubl
          | null | boolean _ | num _ | str _ | arr _ => simp
        | null | boolean _ | num _ | str _ | arr _ => cases dv <;> simp

/-! ### The null-free case: the produced patch is the desired object itself -/

theorem JObj.setF_lookup_self (tf : JObj) (k : String) (v : Json)
    (h : tf.lookup k = some v) : tf.set k v = tf := by
  induction tf with
  | nil => simp [JObj.lookup] at h
  | cons k' v' t ih =>
    simp only [JObj.lookup] at h
    by_cases hk : k' = k
    · simp only [hk, if_pos rfl] at h
      injection h with h
      simp [JObj.set, hk, h]
    · simp only [hk, if_false] at h
      simp [JObj.set, hk, ih h]

theorem JObj.erase_absent (tf : JObj) (k : String)
    (h : tf.hasKey k = false) : tf.erase k = tf := by
  induction tf with
  | nil => rfl
  | cons k' v' t ih =>
    have hk : k' ≠ k := by
      rintro rfl
      simp [JObj.hasKey, JObj.lookup] at h
    have ht : t.hasKey k = false := by
      simpa [JObj.hasKey, JObj.lookup, hk] using h
    simp [JObj.erase, hk, ih ht]

theorem JObj.hasEntry_append (p q : JObj) (k : String) (v : Json) :
    (p.append q).hasEntry k v = (p.hasEntry k v || q.hasEntry k v) := by
  induction p with
  | nil => simp [JObj.append, JObj.hasEntry]
  | cons k' v' t ih => simp [JObj.append, JObj.hasEntry, ih, Bool.or_assoc]

theorem JObj.hasEntry_deletedFields (af bf : JObj) (k : String) (v : Json)
    (h : (af.deletedFields bf).hasEntry k v = true) :
    v = .null ∧ bf.hasKey k = false := by
  induction af with
  | nil => simp [JObj.deletedFields, JObj.hasEntry] at h
  | cons k' v' t ih =>
    by_cases hb : bf.hasKey k'
    · rw [show (JObj.cons k' v' t).deletedFields bf = t.deletedFields bf by
        simp [JObj.deletedFields, hb]] at h
      exact ih h
    · rw [show (JObj.cons k' v' t).deletedFields bf =
          .cons k' .null (t.deletedFields bf) by
        simp [JObj.deletedFields, hb]] at h
      simp only [JObj.hasEntry, Bool.or_eq_true, Bool.and_eq_true] at h
      rcases h with ⟨h1, h2⟩ | h
      · simp only [decide_eq_true_eq] at h1 h2
        subst h1
        exact ⟨h2.symm ▸ rfl, by simpa using hb⟩
      · exact ih h

theorem JObj.noNullValsF_hasEntry (fs : JObj) (k : String) (w : Json)
    (h : fs.noNullValsF = true) (he : fs.hasEntry k w = true) :
    w ≠ .null ∧ w.noNullVals = true := by
  induction fs with
  | nil => simp [JObj.hasEntry] at he
  | cons k' v' t ih =>
    simp only [JObj.noNullValsF, Bool.and_eq_true, Bool.not_eq_true'] at h
    simp only [JObj.hasEntry, Bool.or_eq_true, Bool.and_eq_true] at he
    rcases he with ⟨_, h2⟩ | he
    · simp only [decide_eq_true_eq] at h2
      subst h2
      refine ⟨?_, h.1.2⟩
      have := h.1.1
      simp only [decide_eq_true_eq] at this
      exact fun hx => (by simp [hx] at this)
    · exact ih h.2 he

/-- Folding a patch whose every entry is either a null marker for an absent
key or a value the target already absorbs leaves the target unchanged. -/
theorem JObj.mpf_good_noop (pf : JObj) : ∀ (vf : JObj),
    (∀ k w, pf.hasEntry k w = true →
      (w = .null ∧ vf.hasKey k = false) ∨
      (w ≠ .null ∧ ∃ dv, vf.lookup k = some dv ∧
        Json.mergePatch dv w = dv)) →
    JObj.mergePatchFields vf pf = vf := by
  induction pf with
  | nil => intro vf _; rfl
  | cons k w rest ih =>
    intro vf hgood
    have hhead := hgood k w (by simp [JObj.hasEntry])
    have htail : ∀ k' w', rest.hasEntry k' w' = true →
        (w' = .null ∧ vf.hasKey k' = false) ∨
        (w' ≠ .null ∧ ∃ dv, vf.lookup k' = some dv ∧
          Json.mergePatch dv w' = dv) := by
      intro k' w' h'
      apply hgood
      simp only [JObj.hasEntry, Bool.or_eq_true]
      exact Or.inr h'
    rcases hhead with ⟨hw, habs⟩ | ⟨hw, dv, hdv, hmp⟩
    · subst hw
      rw [JObj.mergePatchFields_cons_null, JObj.erase_absent _ _ habs]
      exact ih vf htail
    · rw [JObj.mergePatchFields_cons_found vf k w dv rest hw hdv, hmp,
        JObj.setF_lookup_self vf k dv hdv]
      exact ih vf htail

/-- Merging a well-formed document with no null object fields into itself is
the identity. -/
theorem Json.mergePatch_self (n : Nat) : ∀ (v : Json),
    sizeOf v ≤ n → v.wf = true → v.noNullVals = true →
    Json.mergePatch v v = v := by
  induction n with
  | zero =>
    intro v hsz _ _
    cases v <;> simp at hsz
  | succ n ihn =>
    intro v hsz hwf hnn
    cases v with
    | null | boolean _ | num _ | str _ | arr _ => rfl
    | obj vf =>
      show Json.obj (JObj.mergePatchFields vf vf) = Json.obj vf
      congr 1
      apply JObj.mpf_good_noop
      intro k w hent
      right
      have hlk := JObj.hasEntry_lookup vf k w
        (JObj.wfF_keysNodup vf hwf) hent
      have hsw : sizeOf w ≤ n := by
        have := JObj.hasEntry_size vf k w hent
        simp at hsz
        omega
      have hn := JObj.noNullValsF_hasEntry vf k w hnn hent
      exact ⟨hn.1, w, hlk,
        ihn w hsw (JObj.wfF_hasEntry_wf vf k w hwf hent) hn.2⟩

/-- Every forward entry of the diff is either the desired value itself or the
recursive diff of two object values. -/
theorem JObj.diffFields_entry (lf : JObj) : ∀ (df : JObj) (k : String)
    (w : Json), df.keysNodup = true →
    (lf.diffFields df).hasEntry k w = true →
    ∃ dv, df.lookup k = some dv ∧
      (w = dv ∨ ∃ lvs dvs, dv = .obj dvs ∧ lf.lookup k = some (.obj lvs) ∧
        w = .obj (lvs.getDiff dvs)) := by
  intro df
  induction df with
  | nil =>
    intro k w _ he
    simp [JObj.diffFields, JObj.hasEntry] at he
  | cons k0 dv0 rest ih =>
    intro k w hnd he
    simp only [JObj.keysNodup, Bool.and_eq_true, Bool.not_eq_true'] at hnd
    have hlift : ∀ hk : k0 ≠ k, (lf.diffFields rest).hasEntry k w = true →
        ∃ dv, (JObj.cons k0 dv0 rest).lookup k = some dv ∧
          (w = dv ∨ ∃ lvs dvs, dv = .obj dvs ∧
            lf.lookup k = some (.obj lvs) ∧ w = .obj (lvs.getDiff dvs)) := by
      intro hk h'
      obtain ⟨dv, hdv, hrest⟩ := ih k w hnd.2 h'
      exact ⟨dv, by simp [JObj.lookup, hk, hdv], hrest⟩
    have hkey : ∀ hne : (lf.diffFields rest).hasEntry k w = true, k0 ≠ k := by
      intro h' hk
      subst hk
      have := JObj.hasEntry_hasKey _ _ _ h'
      have := JObj.diffFields_hasKey lf rest k0 this
      simp [this] at hnd
    cases ha : lf.lookup k0 with
    | none =>
      rw [JObj.diffFields_cons_missing _ _ _ _ ha] at he
      simp only [JObj.hasEntry, Bool.or_eq_true, Bool.and_eq_true] at he
      rcases he with ⟨h1, h2⟩ | he
      · simp only [decide_eq_true_eq] at h1 h2
        subst h1
        exact ⟨dv0, by simp [JObj.lookup], Or.inl (by simp [h2])⟩
      · exact hlift (hkey he) he
    | some av =>
      cases av with
      | obj afs =>
        cases dv0 with
        | obj bfs =>
          rw [JObj.diffFields_cons_objs _ _ afs bfs _ ha] at he
          by_cases hg : afs.getDiff bfs = .nil
          · rw [if_pos hg] at he
            exact hlift (hkey he) he
          · rw [if_neg hg] at he
            simp only [JObj.hasEntry, Bool.or_eq_true, Bool.and_eq_true] at he
            rcases he with ⟨h1, h2⟩ | he
            · simp only [decide_eq_true_eq] at h1 h2
              subst h1
              refine ⟨.obj bfs, by simp [JObj.lookup], Or.inr ?_⟩
              exact ⟨afs, bfs, rfl, ha, by simp [h2]⟩
            · exact hlift (hkey he) he
        | null | boolean _ | num _ | str _ | arr _ =>
          rw [JObj.diffFields_cons_default _ _ _ _ _ ha
            (by simp [Json.isObj])] at he
          split at he
          · exact hlift (hkey he) he
          · simp only [JObj.hasEntry, Bool.or_eq_true, Bool.and_eq_true] at he
            rcases he with ⟨h1, h2⟩ | he
            · simp only [decide_eq_true_eq] at h1 h2
              subst h1
              exact ⟨w, by simp [JObj.lookup, h2], Or.inl rfl⟩
            · exact hlift (hkey he) he
      | null | boolean _ | num _ | str _ | arr _ =>
        rw [JObj.diffFields_cons_default _ _ _ _ _ ha
          (by simp [Json.isObj])] at he
        split at he
        · exact hlift (hkey he) he
        · simp only [JObj.hasEntry, Bool.or_eq_true, Bool.and_eq_true] at he
          rcases he with ⟨h1, h2⟩ | he
          · simp only [decide_eq_true_eq] at h1 h2
            subst h1
            exact ⟨dv0, by simp [JObj.lookup], Or.inl (by simp [h2])⟩
          · exact hlift (hkey he) he

/-- For a well-formed desired object with no null fields, folding the raw
delta into the deep copy of the desired object is the identity: the candidate
equals the desired object. -/
theorem JObj.cand_nullfree (n : Nat) : ∀ (lf df : JObj),
    sizeOf df ≤ n → df.wfF = true → df.noNullValsF = true →
    JObj.mergePatchFields df (lf.getDiff df) = df := by
  induction n with
  | zero =>
    intro lf df hsz _ _
    cases df <;> simp at hsz
  | succ n ihn =>
    intro lf df hsz hwf hnn
    apply JObj.mpf_good_noop
    intro k w hent
    rw [JObj.getDiff, JObj.hasEntry_append, Bool.or_eq_true] at hent
    rcases hent with hfwd | hdel
    · obtain ⟨dv, hdv, hshape⟩ := JObj.diffFields_entry lf df k w
        (JObj.wfF_keysNodup df hwf) hfwd
      have hentd := JObj.lookup_hasEntry df k dv hdv
      have hnnd := JObj.noNullValsF_hasEntry df k dv hnn hentd
      have hwfd := JObj.wfF_hasEntry_wf df k dv hwf hentd
      have hsd : sizeOf dv < sizeOf df := JObj.hasEntry_size df k dv hentd
      right
      rcases hshape with rfl | ⟨lvs, dvs, rfl, _, rfl⟩
      · exact ⟨hnnd.1, w, hdv,
          Json.mergePatch_self n w (by omega) hwfd hnnd.2⟩
      · refine ⟨by simp, .obj dvs, hdv, ?_⟩
        show Json.obj (JObj.mergePatchFields dvs (lvs.getDiff dvs)) =
          Json.obj dvs
        congr 1
        apply ihn lvs dvs ?_ hwfd hnnd.2
        simp at hsd
        omega
    · obtain ⟨rfl, habs⟩ := JObj.hasEntry_deletedFields lf df k w hdel
      exact Or.inl ⟨rfl, habs⟩

/-- For a well-formed, null-free desired object, the byte string produced by
the positive patch generator is the serialization of the desired object
itself: the full desired document, with no deletion markers. -/
theorem MergeFromPositivePatch.data_nullfree (lf df : JObj)
    (hwf : df.wfF = true) (hnn : df.noNullValsF = true) :
    (mergeFrom (.obj lf)).Data (.obj df) = some (.obj df) := by
  show some (Json.mergePatch (.obj df) (.obj (lf.getDiff df))) =
    some (.obj df)
  rw [show Json.mergePatch (.obj df) (.obj (lf.getDiff df)) =
    .obj (JObj.mergePatchFields df (lf.getDiff df)) from rfl,
    JObj.cand_nullfree (sizeOf df) lf df (le_refl _) hwf hnn]

/-! ### Idempotence of merge-patch application -/

theorem JObj.mergePatchFields_cons_nonnull (tf : JObj) (k : String)
    (v : Json) (rest : JObj) (hn : v ≠ .null) :
    JObj.mergePatchFields tf (.cons k v rest) =
      JObj.mergePatchFields
        (tf.set k (Json.mergePatch (optVal (tf.lookup k)) v)) rest := by
  cases htf : tf.lookup k with
  | some tv =>
    rw [JObj.mergePatchFields_cons_found tf k v tv rest hn htf]
    simp [optVal]
  | none =>
    rw [JObj.mergePatchFields_cons_missing tf k v rest hn htf]
    simp [optVal]

theorem JObj.mpf_idem_fields (pf : JObj) : ∀ (tf : JObj),
    pf.keysNodup = true →
    (∀ k w, pf.hasEntry k w = true → w ≠ .null ∧
      ∀ x, Json.mergePatch (Json.mergePatch x w) w = Json.mergePatch x w) →
    JObj.mergePatchFields (JObj.mergePatchFields tf pf) pf =
      JObj.mergePatchFields tf pf := by
  induction pf with
  | nil => intro tf _ _; rfl
  | cons k w rest ih =>
    intro tf hnd hidem
    simp only [JObj.keysNodup, Bool.and_eq_true, Bool.not_eq_true'] at hnd
    have hhead := hidem k w (by simp [JObj.hasEntry])
    have htail : ∀ k' w', rest.hasEntry k' w' = true → w' ≠ .null ∧
        ∀ x, Json.mergePatch (Json.mergePatch x w') w' =
          Json.mergePatch x w' := by
      intro k' w' h'
      apply hidem
      simp only [JObj.hasEntry, Bool.or_eq_true]
      exact Or.inr h'
    have hw := hhead.1
    rw [JObj.mergePatchFields_cons_nonnull tf k w rest hw]
    set tf1 := tf.set k (Json.mergePatch (optVal (tf.lookup k)) w) with htf1
    rw [JObj.mergePatchFields_cons_nonnull _ k w rest hw]
    have hA : (JObj.mergePatchFields tf1 rest).lookup k = tf1.lookup k :=
      JObj.lookup_mergePatchFields_frame rest tf1 k hnd.1
    have htf1k : tf1.lookup k =
        some (Json.mergePatch (optVal (tf.lookup k)) w) := by
      rw [htf1, JObj.lookup_set_eq]
    rw [hA, htf1k]
    show JObj.mergePatchFields
      ((JObj.mergePatchFields tf1 rest).set k
        (Json.mergePatch (Json.mergePatch (optVal (tf.lookup k)) w) w))
      rest = _
    rw [hhead.2 (optVal (tf.lookup k)),
      JObj.setF_lookup_self _ _ _ (by rw [hA, htf1k])]
    exact ih tf1 hnd.2 htail

theorem Json.mergePatch_idem (n : Nat) : ∀ (t v : Json),
    sizeOf v ≤ n → v.wf = true → v.noNullVals = true →
    Json.mergePatch (Json.mergePatch t v) v = Json.mergePatch t v := by
  induction n with
  | zero =>
    intro t v hsz _ _
    cases v <;> simp at hsz
  | succ n ihn =>
    intro t v hsz hwf hnn
    cases v with
    | null | boolean _ | num _ | str _ | arr _ => rfl
    | obj vf =>
      show Json.obj (JObj.mergePatchFields
        (Json.fieldsOf (.obj (JObj.mergePatchFields t.fieldsOf vf))) vf) =
        Json.obj (JObj.mergePatchFields t.fieldsOf vf)
      rw [show Json.fieldsOf (.obj (JObj.mergePatchFields t.fieldsOf vf)) =
        JObj.mergePatchFields t.fieldsOf vf from rfl]
      congr 1
      apply JObj.mpf_idem_fields vf t.fieldsOf
        (JObj.wfF_keysNodup vf hwf)
      intro k w hent
      have hn := JObj.noNullValsF_hasEntry vf k w hnn hent
      refine ⟨hn.1, fun x => ?_⟩
      have hsw : sizeOf w ≤ n := by
        have := JObj.hasEntry_size vf k w hent
        simp at hsz
        omega
      exact ihn x w hsw (JObj.wfF_hasEntry_wf vf k w hwf hent) hn.2

/-! ### No-op stability: a desired object already contained in the live one -/

theorem JObj.subObjF_hasEntry (df : JObj) : ∀ (lf : JObj) (k : String)
    (w : Json), df.subObjF lf = true → df.hasEntry k w = true →
    ∃ lv, lf.lookup k = some lv ∧ Json.subObj w lv = true := by
  induction df with
  | nil =>
    intro lf k w _ he
    simp [JObj.hasEntry] at he
  | cons k' v' rest ih =>
    intro lf k w hs he
    simp only [JObj.subObjF, Bool.and_eq_true] at hs
    simp only [JObj.hasEntry, Bool.or_eq_true, Bool.and_eq_true] at he
    rcases he with ⟨h1, h2⟩ | he
    · simp only [decide_eq_true_eq] at h1 h2
      subst h1
      subst h2
      rcases hlk : lf.lookup k' with _ | lv
      · rw [hlk] at hs
        simp at hs
      · rw [hlk] at hs
        exact ⟨lv, rfl, hs.1⟩
    · exact ih lf k w hs.2 he

theorem Json.mergePatch_subObj (n : Nat) : ∀ (l d : Json),
    sizeOf d ≤ n → d.noNullVals = true → Json.subObj d l = true →
    Json.mergePatch l d = l := by
  induction n with
  | zero =>
    intro l d hsz _ _
    cases d <;> simp at hsz
  | succ n ihn =>
    intro l d hsz hnn hsub
    cases d with
    | null | boolean _ | num _ | str _ | arr _ =>
      cases l <;> simp_all [Json.subObj, Json.mergePatch]
    | obj df =>
      cases l with
      | null | boolean _ | num _ | str _ | arr _ =>
        simp [Json.subObj] at hsub
      | obj lf =>
        show Json.obj (JObj.mergePatchFields lf df) = Json.obj lf
        congr 1
        apply JObj.mpf_good_noop
        intro k w hent
        right
        obtain ⟨lv, hlv, hsw⟩ := JObj.subObjF_hasEntry df lf k w hsub hent
        have hn := JObj.noNullValsF_hasEntry df k w hnn hent
        have hsw' : sizeOf w ≤ n := by
          have := JObj.hasEntry_size df k w hent
          simp at hsz
          omega
        exact ⟨hn.1, lv, hlv, ihn lv w hsw' hn.2 hsw⟩

/-! ### Every non-null desired field appears in the produced patch -/

theorem Json.isObj_obj (v : Json) (h : v.isObj = true) :
    ∃ fs, v = .obj fs := by
  cases v <;> simp_all [Json.isObj]

theorem JObj.cand_keeps (lf df : JObj) (k : String) (dv : Json)
    (hndl : lf.keysNodup = true) (hndd : df.keysNodup = true)
    (hd : df.lookup k = some dv) (hnn : dv ≠ .null) :
    ∃ cv, (JObj.mergePatchFields df (lf.getDiff df)).lookup k = some cv := by
  cases hlf : lf.lookup k with
  | none => exact ⟨_, JObj.cand_added lf df k dv hndl hndd hd hlf hnn⟩
  | some lv =>
    by_cases hobj : lv.isObj = true ∧ dv.isObj = true
    · obtain ⟨lvs, rfl⟩ := Json.isObj_obj lv hobj.1
      obtain ⟨dvs, rfl⟩ := Json.isObj_obj dv hobj.2
      exact ⟨_, JObj.cand_objs lf df k lvs dvs hndl hndd hd hlf⟩
    · have hno : lv.isObj = false ∨ dv.isObj = false := by
        rcases Decidable.not_and_iff_or_not.mp hobj with h | h
        · exact Or.inl (by simpa using h)
        · exact Or.inr (by simpa using h)
      by_cases heq : lv = dv
      · exact ⟨_, JObj.cand_same lf df k lv dv hndl hndd hd hlf heq hno⟩
      · exact ⟨_,
          JObj.cand_changed lf df k lv dv hndl hndd hd hlf heq hno hnn⟩

/-! ### Phase dispatcher, post actions and the live store

The deployer trait consumes the integration phase and registers deferred
post actions.  Closures are defunctionalized: a registered action is a tag
carrying the resource set it captured, and its body is the corresponding
run function below. -/

/-- The integration lifecycle phase (`v1alpha1.IntegrationPhase`).  Only the
three phases the deployer distinguishes are named; every other value of the
open string-typed enum is `other`. -/
inductive IntegrationPhase where
  | Initialization
  | Deploying
  | Running
  | other (s : String)
  deriving DecidableEq

/-- Errors crossing the component boundary.  `wrapped` models
`errors.Wrap(err, msg)`. -/
inductive Err where
  | keyError (name : String)
  | notFound (key : String)
  | transport (key : String)
  | badJSONDoc
  | wrapped (msg : String) (cause : Err)
  deriving DecidableEq

/-- A desired resource manifest: its identity, whether the identity can be
resolved (`client.ObjectKeyFromObject` succeeds), and its body. -/
structure KResource where
  name : String
  keyOk : Bool
  body : Json
  deriving DecidableEq

/-- `client.ObjectKeyFromObject(resource)`: the external identity resolver,
modelled at its boundary. -/
def ObjectKeyFromObject (r : KResource) : Except Err String :=
  if r.keyOk then .ok r.name else .error (.keyError r.name)

/-- Keyed lookup in the live store. -/
def liveGet : List (String × Json) → String → Option Json
  | [], _ => none
  | (k', v') :: t, k => if k' = k then some v' else liveGet t k

/-- Keyed update in the live store (replace or append). -/
def liveSet : List (String × Json) → String → Json → List (String × Json)
  | [], k, v => [(k, v)]
  | (k', v') :: t, k, v =>
    if k' = k then (k', v) :: t else (k', v') :: liveSet t k v

/-- The authoritative store together with injectable transport failures and
a log of the merge patches applied, in order. -/
structure Store where
  live : List (String × Json)
  patchFail : List String
  replaceFail : List String
  patchLog : List (String × Json)
  deriving DecidableEq

/-- `env.Client.Get(env.C, key, object)`: fetch the live resource; a missing
key is the NotFound error. -/
def clientGet (st : Store) (key : String) : Except Err Json :=
  match liveGet st.live key with
  | some v => .ok v
  | none => .error (.notFound key)

/-- `env.Client.Patch(env.C, resource, patch)`: ask the patch for its data
(its error is returned as the call's error), then apply the merge patch to
the stored live object.  Keys listed in `patchFail` fail with a transport
error. -/
def clientPatch (st : Store) (key : String) (resource : Json)
    (p : MergeFromPositivePatch) : Except Err Store :=
  match p.Data resource with
  | none => .error .badJSONDoc
  | some patchDoc =>
    if key ∈ st.patchFail then .error (.transport key)
    else
      match liveGet st.live key with
      | none => .error (.notFound key)
      | some cur =>
        .ok { st with
          live := liveSet st.live key (Json.mergePatch cur patchDoc),
          patchLog := st.patchLog ++ [(key, patchDoc)] }

/-- One iteration of the Running-phase post action body: resolve the key
(`return err` on failure), fetch the live object into a deep copy
(`return err` on failure), then patch the resource against the live object,
wrapping only the patch error with "error during patch resource". -/
def stepPatch (st : Store) (resource : KResource) : Except Err Store :=
  match ObjectKeyFromObject resource with
  | .error err => .error err
  | .ok key =>
    match clientGet st key with
    | .error err => .error err
    | .ok object =>
      match clientPatch st key resource.body (mergeFrom object) with
      | .error err => .error (.wrapped "error during patch resource" err)
      | .ok st' => .ok st'

/-- The Running-phase post action: patch the resources in set order; the
first error aborts the remaining resources and is returned. -/
def patchAll : List KResource → Store → Store × Option Err
  | [], st => (st, none)
  | r :: rs, st =>
    match stepPatch st r with
    | .error e => (st, some e)
    | .ok st' => patchAll rs st'

/-- The state after an all-successful sequential patch of the given
resources, when no step fails. -/
def patchAllOk : List KResource → Store → Option Store
  | [], st => some st
  | r :: rs, st =>
    match stepPatch st r with
    | .error _ => none
    | .ok st' => patchAllOk rs st'

/-- Modelled from the spec: `kubernetes.ReplaceResources` (package
`pkg/util/kubernetes`, not under src/) — §4.2 Resource Replacer: for each
resource in set order issue a create-or-update full replace; a failure on a
resource aborts the remaining ones and returns the error, earlier resources
remain applied. -/
def ReplaceResources : List KResource → Store → Store × Option Err
  | [], st => (st, none)
  | r :: rs, st =>
    if r.name ∈ st.replaceFail then (st, some (.transport r.name))
    else ReplaceResources rs
      { st with live := liveSet st.live r.name r.body }

/-- A registered post action: the strategy tag together with the resource
set the closure captured (`env.Resources.Items()`). -/
inductive PostAction where
  | replacer (items : List KResource)
  | applier (items : List KResource)
  deriving DecidableEq

/-- Whether a post action is the full-replace strategy. -/
def isReplacer : PostAction → Bool
  | .replacer _ => true
  | .applier _ => false

/-- Whether a post action is the merge-patch strategy. -/
def isApplier : PostAction → Bool
  | .replacer _ => false
  | .applier _ => true

/-- Run a registered post action against the store.  The replacer wraps the
error of `ReplaceResources` with "error during replace resource"; the
applier is `patchAll`. -/
def runPostAction (a : PostAction) (st : Store) : Store × Option Err :=
  match a with
  | .replacer items =>
    match ReplaceResources items st with
    | (st', none) => (st', none)
    | (st', some e) => (st', some (.wrapped "error during replace resource" e))
  | .applier items => patchAll items st

/-- The reconciliation environment: the integration phase, the desired
resource set, and the shared post-action queue. -/
structure Environment where
  phase : IntegrationPhase
  resources : List KResource
  postActions : List PostAction
  deriving DecidableEq

/-- `e.IntegrationInPhase(phases...)`: whether the integration's status
phase is one of the given phases. -/
def IntegrationInPhase (e : Environment)
    (phases : List IntegrationPhase) : Bool :=
  e.phase ∈ phases

/-- `deployerTrait.Configure`: applicable exactly in the Initialization,
Deploying and Running phases; never returns an error. -/
def Configure (e : Environment) : Bool × Option Err :=
  (IntegrationInPhase e
    [.Initialization, .Deploying, .Running], none)

/-- `deployerTrait.Apply`: register the replace post action in the
Initialization and Deploying phases, the patch post action in the Running
phase, and nothing otherwise; always returns nil. -/
def Apply (e : Environment) : Environment × Option Err :=
  match e.phase with
  | .Initialization | .Deploying =>
    ({ e with postActions := e.postActions ++ [.replacer e.resources] }, none)
  | .Running =>
    ({ e with postActions := e.postActions ++ [.applier e.resources] }, none)
  | .other _ => (e, none)

/-- `deployerTrait.IsPlatformTrait`: overrides the base class method. -/
def IsPlatformTrait : Bool := true

/-- Whether an error is wrapped with the patch-stage context tag. -/
def isPatchWrapped : Err → Bool
  | .wrapped m _ => m = "error during patch resource"
  | _ => false

theorem ObjectKeyFromObject_ok (r : KResource) (key : String)
    (h : ObjectKeyFromObject r = .ok key) : key = r.name := by
  unfold ObjectKeyFromObject at h
  by_cases hk : r.keyOk
  · rw [if_pos hk] at h
    injection h with h
    exact h.symm
  · rw [if_neg hk] at h
    exact absurd h (by simp)

theorem ObjectKeyFromObject_error (r : KResource) (e : Err)
    (h : ObjectKeyFromObject r = .error e) : e = .keyError r.name := by
  unfold ObjectKeyFromObject at h
  by_cases hk : r.keyOk
  · rw [if_pos hk] at h
    exact absurd h (by simp)
  · rw [if_neg hk] at h
    injection h with h
    exact h.symm

theorem clientGet_error (st : Store) (key : String) (e : Err)
    (h : clientGet st key = .error e) : e = .notFound key := by
  unfold clientGet at h
  cases hl : liveGet st.live key with
  | some v => rw [hl] at h; exact absurd h (by simp)
  | none => rw [hl] at h; injection h with h; exact h.symm

/-- A successful patch step appends exactly one entry to the patch log,
keyed by the resource's name. -/
theorem stepPatch_log (st : Store) (r : KResource) (st' : Store)
    (h : stepPatch st r = .ok st') :
    ∃ doc, st'.patchLog = st.patchLog ++ [(r.name, doc)] := by
  unfold stepPatch at h
  cases hko : ObjectKeyFromObject r with
  | error e => rw [hko] at h; exact absurd h (by simp)
  | ok key =>
    rw [hko] at h
    dsimp only at h
    have hkey := ObjectKeyFromObject_ok r key hko
    subst hkey
    cases hg : clientGet st r.name with
    | error e => rw [hg] at h; exact absurd h (by simp)
    | ok object =>
      rw [hg] at h
      dsimp only at h
      cases hp : clientPatch st r.name r.body (mergeFrom object) with
      | error e => rw [hp] at h; exact absurd h (by simp)
      | ok st2 =>
        rw [hp] at h
        injection h with h
        subst h
        unfold clientPatch at hp
        cases hdata : (mergeFrom object).Data r.body with
        | none => rw [hdata] at hp; exact absurd hp (by simp)
        | some doc =>
          rw [hdata] at hp
          dsimp only at hp
          by_cases hf : r.name ∈ st.patchFail
          · rw [if_pos hf] at hp
            exact absurd hp (by simp)
          · rw [if_neg hf] at hp
            cases hcur : liveGet st.live r.name with
            | none => rw [hcur] at hp; exact absurd hp (by simp)
            | some cur =>
              rw [hcur] at hp
              injection hp with hp
              exact ⟨doc, by rw [← hp]⟩

/-! ## The claims -/

/-- C9: For every Environment, the phase dispatcher's `Configure` returns
true exactly when the integration's phase is one of Initialization,
Deploying or Running, and false for every other phase; it never returns an
error. -/
theorem deployer_configure_phases (e : Environment) :
    ((Configure e).1 = true ↔
      (e.phase = .Initialization ∨ e.phase = .Deploying ∨
        e.phase = .Running)) ∧
    (Configure e).2 = none := by
  cases hph : e.phase <;>
    simp [Configure, IntegrationInPhase, hph]

/-- C5: One call to `Apply` registers post actions according to the phase:
Initialization or Deploying append exactly one replacer action and no
applier action; Running appends exactly one applier action and no replacer
action; any other phase appends nothing — at most one strategy per pass,
determined solely by the phase, and `Apply` itself never errors. -/
theorem deployer_apply_phase_routing (e : Environment) :
    (Apply e).2 = none ∧
    ((Apply e).1.postActions.drop e.postActions.length).length ≤ 1 ∧
    ((e.phase = .Initialization ∨ e.phase = .Deploying) →
      ((Apply e).1.postActions.drop e.postActions.length).countP
          isReplacer = 1 ∧
      ((Apply e).1.postActions.drop e.postActions.length).countP
          isApplier = 0) ∧
    (e.phase = .Running →
      ((Apply e).1.postActions.drop e.postActions.length).countP
          isApplier = 1 ∧
      ((Apply e).1.postActions.drop e.postActions.length).countP
          isReplacer = 0) ∧
    (∀ s, e.phase = .other s →
      (Apply e).1.postActions.drop e.postActions.length = []) := by
  cases hph : e.phase <;>
    simp [Apply, hph, List.drop_left, isReplacer, isApplier]

/-- Witness for C5 at a concrete Running-phase environment. -/
theorem deployer_apply_phase_routing_witness :
    ((Apply ⟨.Running, [], []⟩).1.postActions.drop 0).countP isApplier = 1 ∧
    ((Apply ⟨.Running, [], []⟩).1.postActions.drop 0).countP
      isReplacer = 0 :=
  (deployer_apply_phase_routing ⟨.Running, [], []⟩).2.2.2.1 rfl

/-- C10: computing the patch mutates neither the live object nor the
desired object: in the state-threaded embedding of `Data`, the unmarshal
step writes only to the deep copy, so the pair (from, obj) comes back
unchanged, and the returned bytes agree with `Data`. -/
theorem deployer_data_frame (s : MergeFromPositivePatch) (obj : Json) :
    (s.DataSt obj).2 = (s.fromObject, obj) ∧
    (s.DataSt obj).1 = s.Data obj := by
  unfold MergeFromPositivePatch.DataSt MergeFromPositivePatch.Data
  cases h : createMergePatch s.fromObject obj <;> simp [h]

/-- C8: In the Running-phase post action, resources are processed
sequentially in set order and the first error aborts the rest: if the
prefix patches successfully and the next resource's step fails, `patchAll`
returns that state and that error immediately — the store reflects exactly
the prefix's patches (the log gains exactly the prefix's names, in order)
and the remaining resources are never attempted. -/
theorem deployer_patchAll_first_failure (pre : List KResource)
    (r : KResource) (post : List KResource) (st st' : Store) (e : Err)
    (hpre : patchAllOk pre st = some st')
    (hfail : stepPatch st' r = .error e) :
    patchAll (pre ++ r :: post) st = (st', some e) ∧
    st'.patchLog.map Prod.fst =
      st.patchLog.map Prod.fst ++ pre.map KResource.name := by
  induction pre generalizing st with
  | nil =>
    simp only [patchAllOk] at hpre
    injection hpre with hpre
    subst hpre
    simp [patchAll, hfail]
  | cons p pre' ih =>
    simp only [patchAllOk] at hpre
    cases hsp : stepPatch st p with
    | error e0 =>
      rw [hsp] at hpre
      exact absurd hpre (by simp)
    | ok st1 =>
      rw [hsp] at hpre
      dsimp only at hpre
      obtain ⟨hrun, hlog⟩ := ih st1 hpre
      obtain ⟨doc, hdoc⟩ := stepPatch_log st p st1 hsp
      constructor
      · show patchAll ((p :: pre') ++ r :: post) st = _
        simp only [List.cons_append, patchAll, hsp]
        exact hrun
      · rw [hlog, hdoc]
        simp

/-- Witness for C8: three resources, the live object for the second one is
missing, so the second step fails with NotFound, only the first is patched
and the third is never attempted. -/
theorem deployer_patchAll_first_failure_witness :
    patchAll ([⟨"a", true, .obj .nil⟩] ++ ⟨"b", true, .obj .nil⟩ ::
        [⟨"c", true, .obj .nil⟩])
      ⟨[("a", .obj .nil)], [], [], []⟩ =
      (⟨[("a", .obj .nil)], [], [], [("a", .obj .nil)]⟩,
        some (.notFound "b")) ∧
    (Store.patchLog
        ⟨[("a", .obj .nil)], [], [], [("a", .obj .nil)]⟩).map Prod.fst =
      (Store.patchLog ⟨[("a", .obj .nil)], [], [], []⟩).map Prod.fst ++
        List.map KResource.name [⟨"a", true, .obj .nil⟩] :=
  deployer_patchAll_first_failure [⟨"a", true, .obj .nil⟩]
    ⟨"b", true, .obj .nil⟩ [⟨"c", true, .obj .nil⟩]
    ⟨[("a", .obj .nil)], [], [], []⟩
    ⟨[("a", .obj .nil)], [], [], [("a", .obj .nil)]⟩ (.notFound "b")
    rfl rfl

/-- C7 counterexample: a live resource missing at patch time surfaces as the
raw NotFound error of the Get call, not wrapped with the
"error during patch resource" context the claim asserts. -/
theorem deployer_get_error_unwrapped_cex :
    (patchAll [⟨"svc", true, .obj .nil⟩] ⟨[], [], [], []⟩).2 =
      some (.notFound "svc") ∧
    isPatchWrapped (.notFound "svc") = false := by
  constructor
  · rfl
  · rfl

/-- C7 amended: errors from the `Patch` store call propagate wrapped with
"error during patch resource" and replace-side errors propagate wrapped
with "error during replace resource", but errors from identity resolution
and from the live `Get` propagate unwrapped (as the raw key or NotFound
error); no error is silently swallowed — a failing step's error is returned
by the post action. -/
theorem deployer_error_wrapping (st : Store) (r : KResource)
    (items : List KResource) :
    (∀ e, stepPatch st r = .error e →
      isPatchWrapped e = true ∨ e = .keyError r.name ∨
        e = .notFound r.name) ∧
    (∀ e, (runPostAction (.replacer items) st).2 = some e →
      ∃ e0, e = .wrapped "error during replace resource" e0) ∧
    (∀ e, stepPatch st r = .error e →
      (patchAll (r :: items) st).2 = some e) := by
  refine ⟨?_, ?_, ?_⟩
  · intro e h
    unfold stepPatch at h
    cases hko : ObjectKeyFromObject r with
    | error e1 =>
      rw [hko] at h
      injection h with h
      subst h
      exact Or.inr (Or.inl (ObjectKeyFromObject_error r e1 hko))
    | ok key =>
      rw [hko] at h
      dsimp only at h
      have hkey := ObjectKeyFromObject_ok r key hko
      subst hkey
      cases hg : clientGet st r.name with
      | error e2 =>
        rw [hg] at h
        injection h with h
        subst h
        exact Or.inr (Or.inr (clientGet_error st r.name e2 hg))
      | ok object =>
        rw [hg] at h
        dsimp only at h
        cases hp : clientPatch st r.name r.body (mergeFrom object) with
        | error e3 =>
          rw [hp] at h
          injection h with h
          subst h
          exact Or.inl (by simp [isPatchWrapped])
        | ok st2 =>
          rw [hp] at h
          exact absurd h (by simp)
  · intro e h
    unfold runPostAction at h
    dsimp only at h
    rcases hrr : ReplaceResources items st with ⟨st2, oe⟩
    rw [hrr] at h
    cases oe with
    | none => exact absurd h (by simp)
    | some e0 =>
      dsimp only at h
      injection h with h
      exact ⟨e0, h.symm⟩
  · intro e h
    simp [patchAll, h]

/-- Witness for C7 amended: with an empty live store and "svc" marked as
failing replace, the patch step fails with a raw NotFound, the replacer
fails wrapped, and the post action returns the step's error. -/
theorem deployer_error_wrapping_witness :
    (isPatchWrapped (Err.notFound "svc") = true ∨
      Err.notFound "svc" = Err.keyError "svc" ∨
      Err.notFound "svc" = Err.notFound "svc") ∧
    (∃ e0, Err.wrapped "error during replace resource" (.transport "svc") =
      Err.wrapped "error during replace resource" e0) ∧
    (patchAll [⟨"svc", true, .obj .nil⟩, ⟨"svc", true, .obj .nil⟩]
      ⟨[], [], ["svc"], []⟩).2 = some (Err.notFound "svc") :=
  ⟨(deployer_error_wrapping ⟨[], [], ["svc"], []⟩ ⟨"svc", true, .obj .nil⟩
      [⟨"svc", true, .obj .nil⟩]).1 (.notFound "svc") rfl,
   (deployer_error_wrapping ⟨[], [], ["svc"], []⟩ ⟨"svc", true, .obj .nil⟩
      [⟨"svc", true, .obj .nil⟩]).2.1
      (.wrapped "error during replace resource" (.transport "svc")) rfl,
   (deployer_error_wrapping ⟨[], [], ["svc"], []⟩ ⟨"svc", true, .obj .nil⟩
      [⟨"svc", true, .obj .nil⟩]).2.2 (.notFound "svc") rfl⟩

/-- C1: for every well-formed live object L and desired object D, applying
the merge patch produced by `Data` (with from = L, target = D) to L yields a
document that agrees with D on every field D explicitly specifies (every
non-null field, recursively; a null field is a deletion marker, which the
positive-patch design deliberately cannot express) and leaves untouched
every field present in L that D does not mention. -/
theorem deployer_data_patch_guarantee (lf df : JObj) (p : Json)
    (hwl : lf.wfF = true) (hwd : df.wfF = true)
    (hp : (mergeFrom (.obj lf)).Data (.obj df) = some p) :
    Json.covers (.obj df) (Json.mergePatch (.obj lf) p) = true ∧
    Json.untouched (.obj lf) (.obj df) (Json.mergePatch (.obj lf) p) =
      true := by
  have hpe : p = .obj (JObj.mergePatchFields df (lf.getDiff df)) := by
    have hrfl : (mergeFrom (.obj lf)).Data (.obj df) =
        some (.obj (JObj.mergePatchFields df (lf.getDiff df))) := rfl
    rw [hrfl] at hp
    injection hp with hp
    exact hp.symm
  subst hpe
  constructor
  · show JObj.coversF df (JObj.mergePatchFields lf
      (JObj.mergePatchFields df (lf.getDiff df))) = true
    exact JObj.coversAux (sizeOf df) df lf df (le_refl _) hwd hwl
      (fun k v h => JObj.hasEntry_lookup df k v
        (JObj.wfF_keysNodup df hwd) h)
  · show JObj.untouchedF lf df (JObj.mergePatchFields lf
      (JObj.mergePatchFields df (lf.getDiff df))) = true
    exact JObj.untouchedAux (sizeOf df) df lf lf (le_refl _) hwd hwl
      (fun k v h => JObj.hasEntry_lookup lf k v
        (JObj.wfF_keysNodup lf hwl) h)

/-- Witness for C1 at the spec's worked example:
L = {replicas: 3, status: {observedGeneration: 5}}, D = {replicas: 5}. -/
theorem deployer_data_patch_guarantee_witness :
    Json.covers (.obj (.cons "replicas" (.num 5) .nil))
      (Json.mergePatch
        (.obj (.cons "replicas" (.num 3)
          (.cons "status"
            (.obj (.cons "observedGeneration" (.num 5) .nil)) .nil)))
        (.obj (.cons "replicas" (.num 5) .nil))) = true ∧
    Json.untouched
      (.obj (.cons "replicas" (.num 3)
        (.cons "status"
          (.obj (.cons "observedGeneration" (.num 5) .nil)) .nil)))
      (.obj (.cons "replicas" (.num 5) .nil))
      (Json.mergePatch
        (.obj (.cons "replicas" (.num 3)
          (.cons "status"
            (.obj (.cons "observedGeneration" (.num 5) .nil)) .nil)))
        (.obj (.cons "replicas" (.num 5) .nil))) = true :=
  deployer_data_patch_guarantee
    (.cons "replicas" (.num 3)
      (.cons "status" (.obj (.cons "observedGeneration" (.num 5) .nil)) .nil))
    (.cons "replicas" (.num 5) .nil)
    (.obj (.cons "replicas" (.num 5) .nil))
    (by decide) (by decide) rfl

/-- C2 counterexample: with from = to = {a: 1} the bytes produced by `Data`
are the full document {a: 1}, while diff(serialize(from),
serialize(candidate)) is the empty patch — the produced patch is not the
recomputed diff. -/
theorem deployer_data_not_diff_cex :
    (mergeFrom (.obj (.cons "a" (.num 1) .nil))).Data
        (.obj (.cons "a" (.num 1) .nil)) =
      some (.obj (.cons "a" (.num 1) .nil)) ∧
    createMergePatch (.obj (.cons "a" (.num 1) .nil))
        (.obj (.cons "a" (.num 1) .nil)) = some (.obj .nil) ∧
    (Json.obj (.cons "a" (.num 1) .nil)) ≠ .obj .nil := by
  refine ⟨rfl, rfl, by decide⟩

/-- C2 amended: the produced patch is not the recomputed diff
diff(A, C); it is the serialization of the candidate itself.  For a
well-formed desired object with no null fields the candidate equals the
desired object verbatim, so the produced patch is the full desired
document: it retains every genuine value change and addition of the naive
delta verbatim (they are values of `to`) and contains no null-deletion
entries at all. -/
theorem deployer_data_full_candidate (lf df : JObj)
    (hwd : df.wfF = true) (hnn : df.noNullValsF = true) :
    (mergeFrom (.obj lf)).Data (.obj df) = some (.obj df) :=
  MergeFromPositivePatch.data_nullfree lf df hwd hnn

/-- Witness for C2 amended: from = {a: 1, b: 2}, to = {a: 1, b: 3} — the
produced patch is the full document {a: 1, b: 3}, not just {b: 3}. -/
theorem deployer_data_full_candidate_witness :
    (mergeFrom (.obj (.cons "a" (.num 1) (.cons "b" (.num 2) .nil)))).Data
      (.obj (.cons "a" (.num 1) (.cons "b" (.num 3) .nil))) =
      some (.obj (.cons "a" (.num 1) (.cons "b" (.num 3) .nil))) :=
  deployer_data_full_candidate
    (.cons "a" (.num 1) (.cons "b" (.num 2) .nil))
    (.cons "a" (.num 1) (.cons "b" (.num 3) .nil))
    (by decide) (by decide)

/-- C3 counterexample: with D = L = {a: 1} (so D ⊆ L holds), the computed
patch is the full document {a: 1}, not the empty patch the claim asserts. -/
theorem deployer_noop_patch_nonempty_cex :
    Json.subObj (.obj (.cons "a" (.num 1) .nil))
      (.obj (.cons "a" (.num 1) .nil)) = true ∧
    (mergeFrom (.obj (.cons "a" (.num 1) .nil))).Data
        (.obj (.cons "a" (.num 1) .nil)) =
      some (.obj (.cons "a" (.num 1) .nil)) ∧
    (Json.obj (.cons "a" (.num 1) .nil)) ≠ .obj .nil := by
  refine ⟨by decide, rfl, by decide⟩

/-- C3 amended: when every field D sets already matches L (D a null-free,
well-formed sub-object of L), the computed patch is not empty — it is the
full serialization of D — but it is a semantic no-op: applying it to L
yields L unchanged. -/
theorem deployer_noop_patch (lf df : JObj)
    (hwd : df.wfF = true) (hnn : df.noNullValsF = true)
    (hsub : Json.subObj (.obj df) (.obj lf) = true) :
    (mergeFrom (.obj lf)).Data (.obj df) = some (.obj df) ∧
    Json.mergePatch (.obj lf) (.obj df) = .obj lf :=
  ⟨MergeFromPositivePatch.data_nullfree lf df hwd hnn,
   Json.mergePatch_subObj (sizeOf (Json.obj df)) (.obj lf) (.obj df)
     (le_refl _) hnn hsub⟩

/-- Witness for C3 amended at L = {a: 1, b: 2}, D = {a: 1}. -/
theorem deployer_noop_patch_witness :
    (mergeFrom (.obj (.cons "a" (.num 1) (.cons "b" (.num 2) .nil)))).Data
      (.obj (.cons "a" (.num 1) .nil)) =
      some (.obj (.cons "a" (.num 1) .nil)) ∧
    Json.mergePatch (.obj (.cons "a" (.num 1) (.cons "b" (.num 2) .nil)))
      (.obj (.cons "a" (.num 1) .nil)) =
      .obj (.cons "a" (.num 1) (.cons "b" (.num 2) .nil)) :=
  deployer_noop_patch (.cons "a" (.num 1) (.cons "b" (.num 2) .nil))
    (.cons "a" (.num 1) .nil) (by decide) (by decide) (by decide)

/-- C4 counterexample: with L = {} and D = {a: 1}, after applying the first
patch the recomputed second patch is again the full document {a: 1}, not
empty as the claim asserts. -/
theorem deployer_second_patch_nonempty_cex :
    (mergeFrom (.obj .nil)).Data (.obj (.cons "a" (.num 1) .nil)) =
      some (.obj (.cons "a" (.num 1) .nil)) ∧
    (mergeFrom (Json.mergePatch (.obj .nil)
        (.obj (.cons "a" (.num 1) .nil)))).Data
        (.obj (.cons "a" (.num 1) .nil)) =
      some (.obj (.cons "a" (.num 1) .nil)) ∧
    (Json.obj (.cons "a" (.num 1) .nil)) ≠ .obj .nil := by
  refine ⟨rfl, rfl, by decide⟩

/-- C4 amended: for a well-formed, null-free desired object D, both the
first and the second computed patches equal serialize(D) — the second is a
semantic no-op but not empty — and applying the patch twice (recomputing it
against the new state) yields the same final object as applying it once:
the result is stable. -/
theorem deployer_patch_idempotent (lf df : JObj)
    (hwd : df.wfF = true) (hnn : df.noNullValsF = true) :
    (mergeFrom (.obj lf)).Data (.obj df) = some (.obj df) ∧
    (mergeFrom (Json.mergePatch (.obj lf) (.obj df))).Data (.obj df) =
      some (.obj df) ∧
    Json.mergePatch (Json.mergePatch (.obj lf) (.obj df)) (.obj df) =
      Json.mergePatch (.obj lf) (.obj df) :=
  ⟨MergeFromPositivePatch.data_nullfree lf df hwd hnn,
   MergeFromPositivePatch.data_nullfree
     (JObj.mergePatchFields lf df) df hwd hnn,
   Json.mergePatch_idem (sizeOf (Json.obj df)) (.obj lf) (.obj df)
     (le_refl _) hwd hnn⟩

/-- Witness for C4 amended at L = {a: 1, c: 7}, D = {a: 2, b: 3}. -/
theorem deployer_patch_idempotent_witness :
    (mergeFrom (.obj (.cons "a" (.num 1) (.cons "c" (.num 7) .nil)))).Data
      (.obj (.cons "a" (.num 2) (.cons "b" (.num 3) .nil))) =
      some (.obj (.cons "a" (.num 2) (.cons "b" (.num 3) .nil))) ∧
    (mergeFrom (Json.mergePatch
        (.obj (.cons "a" (.num 1) (.cons "c" (.num 7) .nil)))
        (.obj (.cons "a" (.num 2) (.cons "b" (.num 3) .nil))))).Data
      (.obj (.cons "a" (.num 2) (.cons "b" (.num 3) .nil))) =
      some (.obj (.cons "a" (.num 2) (.cons "b" (.num 3) .nil))) ∧
    Json.mergePatch
      (Json.mergePatch
        (.obj (.cons "a" (.num 1) (.cons "c" (.num 7) .nil)))
        (.obj (.cons "a" (.num 2) (.cons "b" (.num 3) .nil))))
      (.obj (.cons "a" (.num 2) (.cons "b" (.num 3) .nil))) =
      Json.mergePatch
        (.obj (.cons "a" (.num 1) (.cons "c" (.num 7) .nil)))
        (.obj (.cons "a" (.num 2) (.cons "b" (.num 3) .nil))) :=
  deployer_patch_idempotent
    (.cons "a" (.num 1) (.cons "c" (.num 7) .nil))
    (.cons "a" (.num 2) (.cons "b" (.num 3) .nil))
    (by decide) (by decide)

/-- C6 counterexample: with from = {} and target = {a: null}, the emitted
patch is the empty document — it does not contain the field "a" of the
target's serialization, and it is empty although the target is not. -/
theorem deployer_data_null_dropped_cex :
    (mergeFrom (.obj .nil)).Data (.obj (.cons "a" .null .nil)) =
      some (.obj .nil) ∧
    JObj.lookup JObj.nil "a" = none ∧
    (Json.obj (.cons "a" .null .nil)) ≠ .obj .nil := by
  refine ⟨rfl, rfl, by decide⟩

/-- C6 amended: the bytes returned by `Data` are the serialization of the
deep copy of the target with the raw delta unmarshalled into it; the
emitted patch contains every field of the target whose value is not null
(null-valued fields may be deleted by the fold), so it is non-empty
whenever the target has at least one non-null field. -/
theorem deployer_data_full_object (lf df : JObj) (k : String) (dv : Json)
    (hwl : lf.wfF = true) (hwd : df.wfF = true)
    (hd : df.lookup k = some dv) (hnn : dv ≠ .null) :
    (mergeFrom (.obj lf)).Data (.obj df) =
      some (Json.mergePatch (deepCopyObject (.obj df))
        (.obj (lf.getDiff df))) ∧
    ∃ out, (mergeFrom (.obj lf)).Data (.obj df) = some (.obj out) ∧
      (out.lookup k).isSome = true ∧ Json.obj out ≠ .obj .nil := by
  obtain ⟨cv, hcv⟩ := JObj.cand_keeps lf df k dv
    (JObj.wfF_keysNodup lf hwl) (JObj.wfF_keysNodup df hwd) hd hnn
  refine ⟨rfl, JObj.mergePatchFields df (lf.getDiff df), rfl, ?_, ?_⟩
  · simp [hcv]
  · intro heq
    injection heq with heq
    rw [heq] at hcv
    simp [JObj.lookup] at hcv

/-- Witness for C6 amended at from = {}, target = {a: 1}. -/
theorem deployer_data_full_object_witness :
    (mergeFrom (.obj .nil)).Data (.obj (.cons "a" (.num 1) .nil)) =
      some (Json.mergePatch (deepCopyObject (.obj (.cons "a" (.num 1) .nil)))
        (.obj (JObj.getDiff .nil (.cons "a" (.num 1) .nil)))) ∧
    ∃ out, (mergeFrom (.obj .nil)).Data (.obj (.cons "a" (.num 1) .nil)) =
      some (.obj out) ∧ (out.lookup "a").isSome = true ∧
      Json.obj out ≠ .obj .nil :=
  deployer_data_full_object .nil (.cons "a" (.num 1) .nil) "a" (.num 1)
    (by decide) (by decide) (by decide) (by decide)
